import Mathlib

/-!
# Verification of the constructive volatile-resources placement mapper

Shallow embedding of `src/placement/constructive_mapper_from_fractional.py`.

Modelling conventions:
* Python floats are modelled as rationals (`ℚ`); `float('inf')` never flows
  into arithmetic in the source (it is only a comparison sentinel), so the
  two sentinel uses (`filled_unit_cost` of a zero-capacity bin, the initial
  accumulator of the running minimum) are modelled by a dedicated comparison
  relation and by folding over a nonempty list, respectively.
* `Item` and `Bin` are Python objects with identity; identity and dict
  equality coincide on them as soon as ids are unique (ids come from graph
  nodes, which are unique), so objects are referenced by their `id` here and
  theorems carry `Nodup` hypotheses on the id lists where identity matters.
* Python lists mutated in place become functionally-updated `List` fields.
* `raise` becomes `Except.error`; each distinct exception site gets its own
  `MapError` constructor.
* The two unbounded `while` loops of `map` are modelled with explicit fuel;
  the termination theorem (claim C9) shows the fuel chosen is enough, i.e.
  the fuelled function reaches the same fixed point the Python loop reaches.
-/

namespace VolatilePlacement

/-- One node of the service graph, as consumed by `get_base_bin_packing_problem`:
`node_dict[ns.nf_demand_str]` is `weight`; an optional
`node_dict[ns.location_constr_str]` (set of allowed infra node ids) is `locality`. -/
structure ServiceNode where
  id : Nat
  weight : ℚ
  locality : Option (List Nat)
deriving DecidableEq, Repr

/-- One node of the infrastructure graph: capacity, fixed cost and unit cost
fields read by `get_base_bin_packing_problem`. -/
structure InfraNode where
  id : Nat
  capacity : ℚ
  fixedCost : ℚ
  unitCost : ℚ
deriving DecidableEq, Repr

/-- The input of one `map` call: the two topologies together with the two
checker verdicts (`check_infra` / `check_ns` are external predicates; only
their boolean results matter to the mapper). -/
structure Input where
  infraOk : Bool
  nsOk : Bool
  serviceNodes : List ServiceNode
  infraNodes : List InfraNode
deriving DecidableEq, Repr

/-- Python class `Item`: `mapped_to` holds the bin (by id) this item is mapped
to, `None` by default; `possible_bins` is this item's own list of candidate
bins (by id). -/
structure Item where
  id : Nat
  weight : ℚ
  locality : Option (List Nat)
  possibleBins : List Nat
  mappedTo : Option Nat
deriving DecidableEq, Repr

/-- Python class `Bin`: `mapped_here` stores the items (by id) mapped here, in
insertion order; `preference` is `None` until the relaxation sets it, and is
only ever read after being set, so it is modelled as a plain rational with
junk initial value `0`. -/
structure Bin where
  id : Nat
  capacity : ℚ
  fixedCost : ℚ
  unitCost : ℚ
  mappedHere : List Nat
  preference : ℚ
deriving DecidableEq, Repr

/-- The mutable solve state held on the `ConstructiveMapperFromFractional`
object: `self.items`, `self.bins`, `self.min_bin_preference` (junk `0` until
set, mirroring `None`), `self.epsilon`. -/
structure PState where
  items : List Item
  bins : List Bin
  minPref : ℚ
  epsilon : ℚ
deriving DecidableEq, Repr

/-- Every distinct exception site of the source, one constructor each.
The `unfeasible*` constructors are the `UnfeasibleBinPacking` raises, the
`notImplemented*` one is the `NotImplementedError`, `valueErrorEmptyItems`
is the `ValueError` Python's `min` raises on an empty item list, and the
`inconsistent*` / `otherConstraintViolated` ones are the plain `Exception`
raises (defensive internal-consistency checks). -/
inductive MapError where
  | unfeasibleNoBinForSmallest
  | unfeasibleTotalCapacity
  | unfeasibleItemUnmappable (itemId : Nat)
  | notImplementedAmbiguousRounding
  | valueErrorEmptyItems
  | inconsistentMappedHere
  | inconsistentCheckDuplicate
  | inconsistentCheckMissing
  | otherConstraintViolated
deriving DecidableEq, Repr

/-- Which errors are `UnfeasibleBinPacking` instances in the source. -/
def MapError.isUnfeasible : MapError → Bool
  | .unfeasibleNoBinForSmallest => true
  | .unfeasibleTotalCapacity => true
  | .unfeasibleItemUnmappable _ => true
  | _ => false

/-- The output `mapping` dict of `map`: only its `worked` flag matters to the
claims (the assignment itself lives in the final `PState`). -/
structure MapResult where
  worked : Bool
deriving DecidableEq, Repr

/-- `self.epsilon = 1e-3`. -/
def epsilonDefault : ℚ := 1/1000

/-- `Bin.filled_unit_cost` compared: `fixed_cost / capacity + unit_cost`, with
the fixed part `float('inf')` when `capacity ≤ 0`.  An infinite key compares
`≤` exactly against another infinite key. -/
def filledUnitCostLE (a b : Bin) : Prop :=
  if 0 < a.capacity then
    (if 0 < b.capacity then
      a.fixedCost / a.capacity + a.unitCost ≤ b.fixedCost / b.capacity + b.unitCost
    else True)
  else ¬ 0 < b.capacity

instance : DecidableRel filledUnitCostLE := fun a b => by
  unfold filledUnitCostLE
  split
  · split
    · exact inferInstance
    · exact inferInstance
  · exact inferInstance

/-- `get_bins_sorted_by_filled_unit_cost`: Python's `sorted` is a stable sort
by `filled_unit_cost`; `List.insertionSort` is the stable sort in Lean. -/
def getBinsSortedByFilledUnitCost (bins : List Bin) : List Bin :=
  bins.insertionSort filledUnitCostLE

/-- `self.total_item_weight`. -/
def totalItemWeight (items : List Item) : ℚ :=
  (items.map (fun i => i.weight)).sum

/-- Dereference a bin id (Python holds the object itself). -/
def findBin (bins : List Bin) (bid : Nat) : Option Bin :=
  bins.find? (fun b => b.id == bid)

/-- Dereference an item id (Python holds the object itself). -/
def findItem (items : List Item) (iid : Nat) : Option Item :=
  items.find? (fun i => i.id == iid)

/-- The weight of the item with id `iid` (`0` is junk for a dangling id, which
never occurs in reachable states). -/
def itemWeight (items : List Item) (iid : Nat) : ℚ :=
  ((findItem items iid).map (fun i => i.weight)).getD 0

/-- `Bin.total_load`: sum of the weights of the items mapped here. -/
def totalLoad (items : List Item) (b : Bin) : ℚ :=
  (b.mappedHere.map (itemWeight items)).sum

/-- `Bin.is_overloaded`: `capacity < total_load`. -/
def isOverloaded (items : List Item) (b : Bin) : Bool :=
  decide (b.capacity < totalLoad items b)

/-- `Bin.does_item_fit`: `capacity >= total_load + item.weight`. -/
def doesItemFit (items : List Item) (b : Bin) (it : Item) : Bool :=
  decide (totalLoad items b + it.weight ≤ b.capacity)

/-- `Bin.get_variable_cost_of_mapping`: `item.weight * bin.unit_cost`. -/
def getVariableCostOfMapping (b : Bin) (it : Item) : ℚ :=
  it.weight * b.unitCost

/-- Python `min(items, key=weight)` (only the weight of the minimum is used). -/
def minItemWeight (items : List Item) : Option ℚ :=
  (items.map (fun i => i.weight)).min?

/-- The items of `get_base_bin_packing_problem`, one per service node, with
`possible_bins` still empty. -/
def builtItems (inp : Input) : List Item :=
  inp.serviceNodes.map (fun n =>
    { id := n.id, weight := n.weight, locality := n.locality,
      possibleBins := [], mappedTo := none })

/-- The bins `get_base_bin_packing_problem` keeps: exactly the infra nodes
whose capacity can host the smallest item (the `elif` branch only logs). -/
def builtBins (inp : Input) (minw : ℚ) : List Bin :=
  (inp.infraNodes.filter (fun n => decide (minw ≤ n.capacity))).map
    (fun n => { id := n.id, capacity := n.capacity, fixedCost := n.fixedCost,
                unitCost := n.unitCost, mappedHere := [], preference := 0 })

/-- `get_base_bin_packing_problem`: build all items; find the smallest item
(Python `min` raises `ValueError` when there are no items); keep the bins
that can host it; raise `UnfeasibleBinPacking` when no bin is kept; give
every item its own copy of the full bin list as `possible_bins`. -/
def getBaseBinPackingProblem (inp : Input) : Except MapError PState :=
  match minItemWeight (builtItems inp) with
  | none => .error .valueErrorEmptyItems
  | some minw =>
    if (builtBins inp minw).isEmpty then .error .unfeasibleNoBinForSmallest
    else .ok { items := (builtItems inp).map
                 (fun it => { it with possibleBins := (builtBins inp minw).map (fun b => b.id) }),
               bins := builtBins inp minw, minPref := 0, epsilon := epsilonDefault }

/-- The loop body of `PruneLocalityConstraints.prune_possible_mappings`: for an
item carrying a locality constraint, remove every possible bin whose id is
not allowed (keeping order); an item without the attribute is untouched. -/
def pruneOneItem (it : Item) : Item :=
  match it.locality with
  | none => it
  | some allowed => { it with possibleBins := it.possibleBins.filter (fun bid => allowed.contains bid) }

/-- `PruneLocalityConstraints.prune_possible_mappings` over all items.  The
bin list is not modified. -/
def prunePossibleMappings (items : List Item) : List Item :=
  items.map pruneOneItem

/-- Fold Python's running minimum (`min_pref = float('inf')` then `<` updates);
the list is nonempty in every reachable call, `0` is the junk value for `[]`. -/
def foldMin : List ℚ → ℚ
  | [] => 0
  | p :: ps => ps.foldl min p

/-- `set_initial_bin_preferences`: every best bin except the last one gets
`preference = capacity`; the last one (`bin is original_best_bins[-1]`, an
identity test, here an id test as ids are unique) gets
`total_item_weight - (total_bin_capacity - capacity)`; `min_bin_preference`
becomes the minimum preference among the best bins. -/
def setInitialBinPreferences (totalW totalCap : ℚ) (bestIds : List Nat) (s : PState) : PState :=
  let lastId := bestIds.getLast?
  let bins' := s.bins.map (fun b =>
    if bestIds.contains b.id then
      { b with preference :=
          if some b.id = lastId then totalW - (totalCap - b.capacity) else b.capacity }
    else b)
  let prefs := bestIds.filterMap (fun bid => (findBin bins' bid).map (fun b => b.preference))
  { s with bins := bins', minPref := foldMin prefs }

/-- The accumulation loop of `get_fist_best_bins`: add sorted bins one by one,
returning the accumulated list (and its cumulative capacity) at the first
point where the cumulative capacity reaches the total item weight; `none`
when even the full list falls short (the `for`-`else` raise). -/
def getFistBestBinsAux (totalW : ℚ) : List Bin → ℚ → List Bin → Option (List Bin × ℚ)
  | [], _, _ => none
  | b :: rest, acc, chosen =>
    let acc' := acc + b.capacity
    let chosen' := chosen ++ [b]
    if totalW ≤ acc' then some (chosen', acc')
    else getFistBestBinsAux totalW rest acc' chosen'

/-- `get_fist_best_bins` (sic): the first `k` best bins of the sorted order,
raising `UnfeasibleBinPacking` when the total capacity is short; on success
the initial preferences are set. -/
def getFistBestBins (s : PState) : Except MapError (List Nat × PState) :=
  match getFistBestBinsAux (totalItemWeight s.items) (getBinsSortedByFilledUnitCost s.bins) 0 [] with
  | none => .error .unfeasibleTotalCapacity
  | some (best, totalCap) =>
    let bestIds := best.map (fun b => b.id)
    .ok (bestIds, setInitialBinPreferences (totalItemWeight s.items) totalCap bestIds s)

/-- Python `max(bs, key=preference)` over a nonempty list `b :: bs`: keeps the
first element whose preference is maximal (replacement only on strictly
greater). -/
def maxByPreference (b : Bin) (bs : List Bin) : Bin :=
  bs.foldl (fun acc c => if acc.preference < c.preference then c else acc) b

/-- `[b for b in best_bins if b in item.possible_bins]`, in best-bin order. -/
def bestAndPossibleBins (s : PState) (bestIds : List Nat) (it : Item) : List Bin :=
  (bestIds.filter (fun bid => it.possibleBins.contains bid)).filterMap (findBin s.bins)

/-- `item.mapped_to = chosen_bin; chosen_bin.mapped_here.append(item)`. -/
def assignItemToBin (s : PState) (iid bid : Nat) : PState :=
  { s with
    items := s.items.map (fun it => if it.id == iid then { it with mappedTo := some bid } else it),
    bins := s.bins.map (fun b => if b.id == bid then { b with mappedHere := b.mappedHere ++ [iid] } else b) }

/-- The per-item case split of `map_all_items_to_bins`: nonempty intersection →
its member of maximal preference; empty intersection with a single possible
bin → that bin; empty intersection with several possible bins →
`NotImplementedError`; no possible bin → `UnfeasibleBinPacking` naming the
item. -/
def chooseBinForItem (s : PState) (bestIds : List Nat) (it : Item) : Except MapError Nat :=
  match bestAndPossibleBins s bestIds it with
  | c :: cs => .ok (maxByPreference c cs).id
  | [] =>
    match it.possibleBins with
    | [bid] => .ok bid
    | _ :: _ :: _ => .error .notImplementedAmbiguousRounding
    | [] => .error (.unfeasibleItemUnmappable it.id)

/-- The `for item in self.items` loop of `map_all_items_to_bins`; the loop
iterates over the item list as it was on entry (only `mapped_to` fields
change underneath, which the per-item choice never reads). -/
def mapItemsGo (bestIds : List Nat) : List Item → PState → Except MapError PState
  | [], s => .ok s
  | it :: rest, s =>
    match chooseBinForItem s bestIds it with
    | .error e => .error e
    | .ok bid => mapItemsGo bestIds rest (assignItemToBin s it.id bid)

/-- `map_all_items_to_bins` (the rounding stage). -/
def mapAllItemsToBins (bestIds : List Nat) (s : PState) : Except MapError PState :=
  mapItemsGo bestIds s.items s

/-- The best bins dereferenced, in best-bin order (`for bin in best_bins`). -/
def bestBinsOf (s : PState) (bestIds : List Nat) : List Bin :=
  bestIds.filterMap (findBin s.bins)

/-- The `overloading_items` list: the members of every overloaded best bin,
in best-bin order and membership order. -/
def overloadingItems (s : PState) (bestIds : List Nat) : List Item :=
  ((bestBinsOf s bestIds).filter (fun b => isOverloaded s.items b)).flatMap
    (fun b => b.mappedHere.filterMap (findItem s.items))

/-- `item.mapped_to.unit_cost` (`0` is junk for an unmapped item, on which
Python would raise an `AttributeError`; unreachable in the states the
improvement step runs on). -/
def currentUnitCost (s : PState) (it : Item) : ℚ :=
  match it.mappedTo.bind (findBin s.bins) with
  | some b => b.unitCost
  | none => 0

/-- The guard of the inner loop of `improve_item_to_bin_mappings`:
`bin.does_item_fit(item) and bin is not item.mapped_to and bin in item.possible_bins`. -/
def pairCondition (s : PState) (it : Item) (b : Bin) : Bool :=
  doesItemFit s.items b it && decide (some b.id ≠ it.mappedTo) && it.possibleBins.contains b.id

/-- `cost_of_improvement`: variable cost at the alternative minus variable
cost at the current bin (may be negative). -/
def costOfImprovement (s : PState) (it : Item) (b : Bin) : ℚ :=
  getVariableCostOfMapping b it - it.weight * currentUnitCost s it

/-- All (cost, alternative bin, item) triples the two nested loops of
`improve_item_to_bin_mappings` examine, in examination order. -/
def candidatePairs (s : PState) (bestIds : List Nat) : List (ℚ × Nat × Nat) :=
  (overloadingItems s bestIds).flatMap (fun it =>
    ((bestBinsOf s bestIds).filter (fun b => pairCondition s it b)).map (fun b =>
      (costOfImprovement s it b, b.id, it.id)))

/-- The running-minimum selection (`cost_of_improvement < cost_of_cheapest_improvement`):
keeps the first strict minimum in examination order; `none` iff no candidate. -/
def pickCheapest : List (ℚ × Nat × Nat) → Option (ℚ × Nat × Nat)
  | [] => none
  | p :: ps => some (ps.foldl (fun acc q => if q.1 < acc.1 then q else acc) p)

/-- The accepted move: `mapped_to.mapped_here.remove(item)` (first occurrence),
`target_bin.mapped_here.append(item)`, `item.mapped_to = target_bin`. -/
def moveItem (s : PState) (iid srcId dstId : Nat) : PState :=
  { s with
    bins := s.bins.map (fun b =>
      if b.id == srcId then { b with mappedHere := b.mappedHere.erase iid }
      else if b.id == dstId then { b with mappedHere := b.mappedHere ++ [iid] }
      else b),
    items := s.items.map (fun it => if it.id == iid then { it with mappedTo := some dstId } else it) }

/-- The mutation tail of `improve_item_to_bin_mappings` once the cheapest
pair (target bin `bid`, item `iid`) is selected: the defensive membership
check (`raise Exception` when the item is not in its `mapped_to.mapped_here`;
Python would raise an `AttributeError` when `mapped_to` is unset) and the
accepted move. -/
def movePart (s : PState) (bid iid : Nat) : Except MapError (Option (PState × Nat × Nat)) :=
  match (findItem s.items iid).bind (fun i => i.mappedTo) with
  | none => .error .inconsistentMappedHere
  | some srcId =>
    match findBin s.bins srcId with
    | none => .error .inconsistentMappedHere
    | some srcBin =>
      if srcBin.mappedHere.contains iid then
        .ok (some (moveItem s iid srcId bid, iid, bid))
      else .error .inconsistentMappedHere

/-- One call of `improve_item_to_bin_mappings`: `.ok none` models `return
False` (no overloading item, or no valid (item, alternative) pair);
`.ok (some (s', item, target))` models one accepted move and `return True`. -/
def improveItemToBinMappings (s : PState) (bestIds : List Nat) :
    Except MapError (Option (PState × Nat × Nat)) :=
  if (overloadingItems s bestIds).isEmpty then .ok none
  else
    match pickCheapest (candidatePairs s bestIds) with
    | none => .ok none
    | some (_, bid, iid) => movePart s bid iid

/-- The first `check_bin_mapping` loop: accumulate each item's variable cost,
`none` (= `return False`) at the first unmapped item. -/
def cbmItems (bins : List Bin) : List Item → ℚ → Option ℚ
  | [], acc => some acc
  | it :: rest, acc =>
    match it.mappedTo with
    | none => none
    | some bid =>
      cbmItems bins rest (acc + ((findBin bins bid).map (fun b => getVariableCostOfMapping b it)).getD 0)

/-- `for item in bin.mapped_here: all_items.remove(item)`, failing at the
first member not present (the "each item must be in exactly one bin" raise). -/
def removeAllFrom : List Nat → List Nat → Option (List Nat)
  | remaining, [] => some remaining
  | remaining, iid :: rest =>
    if remaining.contains iid then removeAllFrom (remaining.erase iid) rest else none

/-- The second `check_bin_mapping` loop over all bins: `none` (= `return
False`) at the first overloaded bin; fixed costs of occupied bins
accumulate; duplicated membership raises. -/
def cbmBins (items : List Item) : List Bin → List Nat → ℚ → Except MapError (Option (ℚ × List Nat))
  | [], remaining, acc => .ok (some (acc, remaining))
  | b :: rest, remaining, acc =>
    if isOverloaded items b then .ok none
    else if 0 < b.mappedHere.length then
      match removeAllFrom remaining b.mappedHere with
      | none => .error .inconsistentCheckDuplicate
      | some remaining' => cbmBins items rest remaining' (acc + b.fixedCost)
    else cbmBins items rest remaining acc

/-- `check_bin_mapping`: `.ok (some v)` models `return True` with
`objective_value_of_integer_solution = v`; `.ok none` models `return False`;
the leftover-item raise is `.error .inconsistentCheckMissing`. -/
def checkBinMapping (s : PState) : Except MapError (Option ℚ) :=
  match cbmItems s.bins s.items 0 with
  | none => .ok none
  | some varCost =>
    match cbmBins s.items s.bins (s.items.map (fun i => i.id)) varCost with
    | .error e => .error e
    | .ok none => .ok none
    | .ok (some (obj, remaining)) =>
      if remaining.isEmpty then .ok (some obj) else .error .inconsistentCheckMissing

/-- `check_other_constraints`: re-verify every locality constraint against the
final assignment (an unmapped constrained item is unreachable here since
`check_bin_mapping` passed; Python would raise a `TypeError` on it). -/
def checkOtherConstraints (s : PState) : Bool :=
  s.items.all (fun it =>
    match it.locality with
    | none => true
    | some allowed =>
      match it.mappedTo with
      | some bid => allowed.contains bid
      | none => false)

/-- `get_new_best_bins`: if the mapping already checks out, no expansion;
otherwise admit the first sorted bin not yet among the best bins with
preference `min_bin_preference - epsilon` (updating the minimum), signalling
expansion; if every bin is already in, no expansion is possible. -/
def getNewBestBins (s : PState) (bestIds : List Nat) : Except MapError (List Nat × Bool × PState) :=
  match checkBinMapping s with
  | .error e => .error e
  | .ok (some _) => .ok (bestIds, false, s)
  | .ok none =>
    match (getBinsSortedByFilledUnitCost s.bins).find? (fun b => !(bestIds.contains b.id)) with
    | some b =>
      let newPref := s.minPref - s.epsilon
      .ok (bestIds ++ [b.id], true,
        { s with
          bins := s.bins.map (fun b2 => if b2.id == b.id then { b2 with preference := newPref } else b2),
          minPref := newPref })
    | none => .ok (bestIds, false, s)

/-- The inner `while anything_left_to_improve` loop, fuelled. -/
def iterImprove (bestIds : List Nat) : Nat → PState → Except MapError PState
  | 0, s => .ok s
  | n + 1, s =>
    match improveItemToBinMappings s bestIds with
    | .error e => .error e
    | .ok none => .ok s
    | .ok (some (s', _, _)) => iterImprove bestIds n s'

/-- The inner loop run to its fixed point.  The fuel `overloading items + 1`
is enough under the conditions of claim C9 (every accepted move strictly
decreases the number of items sitting in overloaded best bins), so the
fuelled run coincides with Python's unbounded loop there. -/
def improveLoop (s : PState) (bestIds : List Nat) : Except MapError PState :=
  iterImprove bestIds ((overloadingItems s bestIds).length + 1) s

/-- The outer `while can_add_next_bin` loop, fuelled: drain the improvement
loop, then ask the bin admission step; loop while it expanded. -/
def solveLoop : Nat → List Nat → PState → Except MapError (List Nat × PState)
  | 0, bestIds, s => .ok (bestIds, s)
  | n + 1, bestIds, s =>
    match improveLoop s bestIds with
    | .error e => .error e
    | .ok s' =>
      match getNewBestBins s' bestIds with
      | .error e => .error e
      | .ok (best', expanded, s'') =>
        if expanded then solveLoop n best' s'' else .ok (best', s'')

/-- The solving part of `map` after the checker gate: build, prune, relax,
round once, then the nested loops.  The outer fuel `bins + 1` is enough
(claim C9): each expansion adds a bin not yet among the best bins. -/
def solvePhase (inp : Input) : Except MapError (List Nat × PState) :=
  match getBaseBinPackingProblem inp with
  | .error e => .error e
  | .ok s0 =>
    match getFistBestBins { s0 with items := prunePossibleMappings s0.items } with
    | .error e => .error e
    | .ok (best, s2) =>
      match mapAllItemsToBins best s2 with
      | .error e => .error e
      | .ok s3 => solveLoop (s3.bins.length + 1) best s3

/-- The tail of `map` after the loops: the final `check_bin_mapping` (soft
`worked=False` when it reports an invalid mapping) and
`check_other_constraints` (hard raise). -/
def finishMap (sF : PState) : Except MapError MapResult :=
  match checkBinMapping sF with
  | .error e => .error e
  | .ok none => .ok { worked := false }
  | .ok (some _) =>
    if checkOtherConstraints sF then .ok { worked := true }
    else .error .otherConstraintViolated

/-- `map`: checker gate (soft `worked=False`), the solve phase (the
`try`/`except UnfeasibleBinPacking` block re-raises, so it is the identity
on errors), then the final checks. -/
def mapAlg (inp : Input) : Except MapError MapResult :=
  if !inp.infraOk || !inp.nsOk then .ok { worked := false }
  else
    match solvePhase inp with
    | .error e => .error e
    | .ok (_, sF) => finishMap sF

/-- `solveLoop` instrumented with the number of expansions performed. -/
def solveLoopCount : Nat → List Nat → PState → Nat → Except MapError (List Nat × PState × Nat)
  | 0, bestIds, s, ex => .ok (bestIds, s, ex)
  | n + 1, bestIds, s, ex =>
    match improveLoop s bestIds with
    | .error e => .error e
    | .ok s' =>
      match getNewBestBins s' bestIds with
      | .error e => .error e
      | .ok (best', expanded, s'') =>
        if expanded then solveLoopCount n best' s'' (ex + 1) else .ok (best', s'', ex)

/-- `map` instrumented with how many times the rounding stage
(`map_all_items_to_bins`) ran and how many expansions happened; used to
settle claim C1.  The returned counters are (rounding runs, expansions). -/
def finishTrace (sF : PState) (ex : Nat) : Except MapError (MapResult × Nat × Nat) :=
  match checkBinMapping sF with
  | .error e => .error e
  | .ok none => .ok ({ worked := false }, 1, ex)
  | .ok (some _) =>
    if checkOtherConstraints sF then .ok ({ worked := true }, 1, ex)
    else .error .otherConstraintViolated

def mapTrace (inp : Input) : Except MapError (MapResult × Nat × Nat) :=
  if !inp.infraOk || !inp.nsOk then .ok ({ worked := false }, 0, 0)
  else
    match getBaseBinPackingProblem inp with
    | .error e => .error e
    | .ok s0 =>
      match getFistBestBins { s0 with items := prunePossibleMappings s0.items } with
      | .error e => .error e
      | .ok (best, s2) =>
        match mapAllItemsToBins best s2 with
        | .error e => .error e
        | .ok s3 =>
          match solveLoopCount (s3.bins.length + 1) best s3 0 with
          | .error e => .error e
          | .ok (_, sF, ex) => finishTrace sF ex

/-- One item's contribution to the validator's variable cost: its variable
cost at its assigned bin, `0` if unassigned. -/
def itemVarCost (bins : List Bin) (x : Item) : ℚ :=
  match x.mappedTo with
  | some bid => ((findBin bins bid).map (fun b => getVariableCostOfMapping b x)).getD 0
  | none => 0

/-- The variable-cost part of the validator's integral objective. -/
def variableCostTotal (s : PState) : ℚ :=
  (s.items.map (itemVarCost s.bins)).sum

/-- The integral objective exactly as the validator accumulates it: every
mapped item's variable cost plus the fixed cost of every occupied bin. -/
def integralObjective (s : PState) : ℚ :=
  variableCostTotal s +
    ((s.bins.filter (fun b => 0 < b.mappedHere.length)).map (fun b => b.fixedCost)).sum

/-- Cumulative capacity of the first `k` bins of a list. -/
def prefixCapacity (bins : List Bin) (k : Nat) : ℚ :=
  ((bins.take k).map (fun b => b.capacity)).sum

/-- The best-bin ids `get_fist_best_bins` returns (junk `[]` on the raise). -/
def bestIdsOfRelax (s : PState) : List Nat :=
  match getFistBestBins s with
  | .ok (best, _) => best
  | .error _ => []

/-- `min(service weights)`, the weight threshold of the building stage. -/
def minServiceWeight (inp : Input) : Option ℚ :=
  (inp.serviceNodes.map (fun n => n.weight)).min?

/-- The infra nodes the building stage keeps as bins. -/
def keptInfraNodes (inp : Input) (minw : ℚ) : List InfraNode :=
  inp.infraNodes.filter (fun n => decide (minw ≤ n.capacity))

/-- The bidirectional bookkeeping invariant of claim C7: an item is in a
bin's membership list iff it is assigned there (and then exactly once), an
assigned bin exists, and membership lists only hold real item ids. -/
def BookkeepingInv (s : PState) : Prop :=
  (∀ it ∈ s.items,
    (∀ b ∈ s.bins, (it.id ∈ b.mappedHere ↔ it.mappedTo = some b.id) ∧ b.mappedHere.count it.id ≤ 1) ∧
    (∀ bid, it.mappedTo = some bid → bid ∈ s.bins.map (fun b => b.id))) ∧
  (∀ b ∈ s.bins, ∀ iid ∈ b.mappedHere, iid ∈ s.items.map (fun i => i.id))

/-- The locality invariant of claim C10: an assigned bin is always one of the
item's possible bins. -/
def AssignedInPossible (s : PState) : Prop :=
  ∀ it ∈ s.items, ∀ bid, it.mappedTo = some bid → bid ∈ it.possibleBins

end VolatilePlacement

namespace VolatilePlacement

/-! ## Basic toolkit -/

instance (s : PState) (it : Item) :
    Decidable (∀ bid, it.mappedTo = some bid → bid ∈ s.bins.map (fun b => b.id)) := by
  cases h : it.mappedTo with
  | none => exact isTrue (fun bid hb => by simp [h] at hb)
  | some bid =>
    refine decidable_of_iff (bid ∈ s.bins.map (fun b => b.id)) ?_
    constructor
    · intro hm bid' hb
      cases hb
      exact hm
    · intro hall
      exact hall bid rfl

instance (s : PState) : Decidable (BookkeepingInv s) := by
  unfold BookkeepingInv
  infer_instance

instance (s : PState) : Decidable (AssignedInPossible s) := by
  unfold AssignedInPossible
  infer_instance

theorem findBin_some {bins : List Bin} {x : Nat} {b : Bin} (h : findBin bins x = some b) :
    b ∈ bins ∧ b.id = x := by
  refine ⟨List.mem_of_find?_eq_some h, ?_⟩
  have := List.find?_some h
  simpa using this

theorem findItem_some {items : List Item} {x : Nat} {it : Item} (h : findItem items x = some it) :
    it ∈ items ∧ it.id = x := by
  refine ⟨List.mem_of_find?_eq_some h, ?_⟩
  have := List.find?_some h
  simpa using this

theorem findBin_mem_nodup {bins : List Bin} (hnd : (bins.map (fun b => b.id)).Nodup)
    {b : Bin} (hb : b ∈ bins) : findBin bins b.id = some b := by
  induction bins with
  | nil => cases hb
  | cons hd tl ih =>
    rw [List.map_cons, List.nodup_cons] at hnd
    rcases List.mem_cons.mp hb with rfl | hb'
    · simp [findBin]
    · have hne : ¬ ((hd.id == b.id) = true) := by
        simp only [beq_iff_eq]
        intro he
        exact hnd.1 (by rw [he]; exact List.mem_map_of_mem _ hb')
      have ih' := ih hnd.2 hb'
      unfold findBin
      exact (List.find?_cons_of_neg tl hne).trans ih'

theorem findItem_mem_nodup {items : List Item} (hnd : (items.map (fun i => i.id)).Nodup)
    {it : Item} (hb : it ∈ items) : findItem items it.id = some it := by
  induction items with
  | nil => cases hb
  | cons hd tl ih =>
    rw [List.map_cons, List.nodup_cons] at hnd
    rcases List.mem_cons.mp hb with rfl | hb'
    · simp [findItem]
    · have hne : ¬ ((hd.id == it.id) = true) := by
        simp only [beq_iff_eq]
        intro he
        exact hnd.1 (by rw [he]; exact List.mem_map_of_mem _ hb')
      have ih' := ih hnd.2 hb'
      unfold findItem
      exact (List.find?_cons_of_neg tl hne).trans ih'

theorem findBin_map_id_pres (g : Bin → Bin) (hg : ∀ b, (g b).id = b.id) (bins : List Bin) (x : Nat) :
    findBin (bins.map g) x = (findBin bins x).map g := by
  unfold findBin
  rw [List.find?_map]
  have hp : ((fun b : Bin => b.id == x) ∘ g) = (fun b : Bin => b.id == x) := by
    funext b
    simp [Function.comp, hg]
  rw [hp]

theorem findItem_map_id_pres (g : Item → Item) (hg : ∀ i, (g i).id = i.id)
    (items : List Item) (x : Nat) :
    findItem (items.map g) x = (findItem items x).map g := by
  unfold findItem
  rw [List.find?_map]
  have hp : ((fun i : Item => i.id == x) ∘ g) = (fun i : Item => i.id == x) := by
    funext i
    simp [Function.comp, hg]
  rw [hp]

theorem itemWeight_map_pres (g : Item → Item) (hg : ∀ i, (g i).id = i.id)
    (hw : ∀ i, (g i).weight = i.weight) (items : List Item) (x : Nat) :
    itemWeight (items.map g) x = itemWeight items x := by
  unfold itemWeight
  rw [findItem_map_id_pres g hg]
  cases findItem items x <;> simp [hw]

theorem totalLoad_map_pres (g : Item → Item) (hg : ∀ i, (g i).id = i.id)
    (hw : ∀ i, (g i).weight = i.weight) (items : List Item) (b : Bin) :
    totalLoad (items.map g) b = totalLoad items b := by
  unfold totalLoad
  congr 1
  exact List.map_congr_left (fun iid _ => itemWeight_map_pres g hg hw items iid)

end VolatilePlacement

namespace VolatilePlacement

instance : IsTotal Bin filledUnitCostLE := by
  constructor
  intro a b
  unfold filledUnitCostLE
  by_cases ha : 0 < a.capacity <;> by_cases hb : 0 < b.capacity <;>
    simp [ha, hb, le_total]

instance : IsTrans Bin filledUnitCostLE := by
  constructor
  intro a b c hab hbc
  unfold filledUnitCostLE at *
  by_cases ha : 0 < a.capacity <;> by_cases hb : 0 < b.capacity <;>
    by_cases hc : 0 < c.capacity <;>
    simp_all
  exact le_trans hab hbc

theorem sortedBins_perm (bins : List Bin) :
    (getBinsSortedByFilledUnitCost bins).Perm bins :=
  List.perm_insertionSort filledUnitCostLE bins

theorem sortedBins_sorted (bins : List Bin) :
    (getBinsSortedByFilledUnitCost bins).Sorted filledUnitCostLE :=
  List.sorted_insertionSort filledUnitCostLE bins

theorem maxByPreference_cons (b c : Bin) (cs : List Bin) :
    maxByPreference b (c :: cs) =
      maxByPreference (if b.preference < c.preference then c else b) cs := rfl

theorem maxByPreference_mem (b : Bin) (bs : List Bin) : maxByPreference b bs ∈ b :: bs := by
  induction bs generalizing b with
  | nil => simp [maxByPreference]
  | cons c cs ih =>
    rw [maxByPreference_cons]
    have h := ih (if b.preference < c.preference then c else b)
    rcases List.mem_cons.mp h with he | hm
    · rw [he]
      split <;> simp
    · exact List.mem_cons_of_mem _ (List.mem_cons_of_mem _ hm)

theorem maxByPreference_ge (b : Bin) (bs : List Bin) :
    ∀ x ∈ b :: bs, x.preference ≤ (maxByPreference b bs).preference := by
  induction bs generalizing b with
  | nil =>
    intro x hx
    rcases List.mem_cons.mp hx with rfl | h
    · simp [maxByPreference]
    · cases h
  | cons c cs ih =>
    intro x hx
    rw [maxByPreference_cons]
    have hstep : b.preference ≤ (if b.preference < c.preference then c else b).preference ∧
        c.preference ≤ (if b.preference < c.preference then c else b).preference := by
      split
      · exact ⟨le_of_lt (by assumption), le_refl _⟩
      · exact ⟨le_refl _, le_of_not_lt (by assumption)⟩
    have hhead := ih (if b.preference < c.preference then c else b)
      (if b.preference < c.preference then c else b) (List.mem_cons_self _ _)
    rcases List.mem_cons.mp hx with rfl | hx'
    · exact le_trans hstep.1 hhead
    · rcases List.mem_cons.mp hx' with rfl | hx''
      · exact le_trans hstep.2 hhead
      · exact ih _ x (List.mem_cons_of_mem _ hx'')

theorem pickCheapest_eq_none_iff (l : List (ℚ × Nat × Nat)) :
    pickCheapest l = none ↔ l = [] := by
  cases l <;> simp [pickCheapest]

theorem pickCheapest_spec {l : List (ℚ × Nat × Nat)} {p : ℚ × Nat × Nat}
    (h : pickCheapest l = some p) : p ∈ l ∧ ∀ q ∈ l, p.1 ≤ q.1 := by
  match l, h with
  | a :: as, h =>
    have key : ∀ (as : List (ℚ × Nat × Nat)) (a : ℚ × Nat × Nat),
        (as.foldl (fun acc q => if q.1 < acc.1 then q else acc) a) ∈ a :: as ∧
        (as.foldl (fun acc q => if q.1 < acc.1 then q else acc) a).1 ≤ a.1 ∧
        ∀ q ∈ as, (as.foldl (fun acc q => if q.1 < acc.1 then q else acc) a).1 ≤ q.1 := by
      intro as
      induction as with
      | nil => intro a; simp
      | cons c cs ih =>
        intro a
        simp only [List.foldl_cons]
        obtain ⟨hmem, hle, hall⟩ := ih (if c.1 < a.1 then c else a)
        have hstep : (if c.1 < a.1 then c else a).1 ≤ a.1 ∧ (if c.1 < a.1 then c else a).1 ≤ c.1 := by
          split
          · exact ⟨le_of_lt (by assumption), le_refl _⟩
          · exact ⟨le_refl _, le_of_not_lt (by assumption)⟩
        refine ⟨?_, le_trans hle hstep.1, ?_⟩
        · rcases List.mem_cons.mp hmem with he | hm
          · rw [he]
            split <;> simp
          · exact List.mem_cons_of_mem _ (List.mem_cons_of_mem _ hm)
        · intro q hq
          rcases List.mem_cons.mp hq with rfl | hq'
          · exact le_trans hle hstep.2
          · exact hall q hq'
    have hp : p = as.foldl (fun acc q => if q.1 < acc.1 then q else acc) a := by
      simpa [pickCheapest] using h.symm
    obtain ⟨hmem, hle, hall⟩ := key as a
    refine ⟨hp ▸ hmem, ?_⟩
    intro q hq
    rcases List.mem_cons.mp hq with rfl | hq'
    · exact hp ▸ hle
    · exact hp ▸ hall q hq'

theorem prefixCapacity_zero (bins : List Bin) : prefixCapacity bins 0 = 0 := rfl

theorem prefixCapacity_cons_succ (b : Bin) (rest : List Bin) (k : Nat) :
    prefixCapacity (b :: rest) (k + 1) = b.capacity + prefixCapacity rest k := by
  simp [prefixCapacity]

theorem getFistBestBinsAux_some {W : ℚ} {l : List Bin} {acc : ℚ} {ch best : List Bin} {cap : ℚ}
    (h : getFistBestBinsAux W l acc ch = some (best, cap)) :
    ∃ k, 1 ≤ k ∧ k ≤ l.length ∧ best = ch ++ l.take k ∧
      cap = acc + prefixCapacity l k ∧ W ≤ acc + prefixCapacity l k ∧
      ∀ j, 1 ≤ j → j < k → acc + prefixCapacity l j < W := by
  induction l generalizing acc ch with
  | nil => simp [getFistBestBinsAux] at h
  | cons b rest ih =>
    rw [getFistBestBinsAux] at h
    by_cases hW : W ≤ acc + b.capacity
    · rw [if_pos hW] at h
      have hbest : best = ch ++ [b] ∧ cap = acc + b.capacity := by
        constructor <;> cases h <;> rfl
      refine ⟨1, le_refl 1, by simp, ?_, ?_, ?_, ?_⟩
      · simpa using hbest.1
      · rw [prefixCapacity_cons_succ, prefixCapacity_zero]
        rw [hbest.2]
        ring
      · rw [prefixCapacity_cons_succ, prefixCapacity_zero]
        simpa using hW
      · intro j h1 h2
        omega
    · rw [if_neg hW] at h
      obtain ⟨k, hk1, hkle, hbest, hcap, hge, hlt⟩ := ih h
      refine ⟨k + 1, by omega, by simpa using hkle, ?_, ?_, ?_, ?_⟩
      · rw [hbest, List.take_succ_cons]
        simp
      · rw [prefixCapacity_cons_succ, hcap]
        ring
      · rw [prefixCapacity_cons_succ]
        calc W ≤ acc + b.capacity + prefixCapacity rest k := hge
        _ = acc + (b.capacity + prefixCapacity rest k) := by ring
      · intro j h1 h2
        match j, h1 with
        | 1, _ =>
          rw [prefixCapacity_cons_succ, prefixCapacity_zero]
          have := lt_of_not_le hW
          calc acc + (b.capacity + 0) = acc + b.capacity := by ring
          _ < W := this
        | j' + 2, _ =>
          have := hlt (j' + 1) (by omega) (by omega)
          rw [prefixCapacity_cons_succ]
          calc acc + (b.capacity + prefixCapacity rest (j' + 1))
              = acc + b.capacity + prefixCapacity rest (j' + 1) := by ring
          _ < W := this

theorem getFistBestBinsAux_none {W : ℚ} {l : List Bin} {acc : ℚ} {ch : List Bin}
    (hcap : ∀ b ∈ l, 0 ≤ b.capacity)
    (hlt : acc + ((l.map (fun b => b.capacity)).sum) < W) :
    getFistBestBinsAux W l acc ch = none := by
  induction l generalizing acc ch with
  | nil => rfl
  | cons b rest ih =>
    rw [getFistBestBinsAux]
    have hrest : ∀ x ∈ rest, 0 ≤ x.capacity := fun x hx => hcap x (List.mem_cons_of_mem _ hx)
    have hsum : 0 ≤ ((rest.map (fun b => b.capacity)).sum) := by
      apply List.sum_nonneg
      intro x hx
      obtain ⟨y, hy, rfl⟩ := List.mem_map.mp hx
      exact hrest y hy
    have hlt' : acc + b.capacity + ((rest.map (fun b => b.capacity)).sum) < W := by
      have : acc + ((b.capacity :: rest.map (fun b => b.capacity)).sum) < W := by
        simpa using hlt
      rw [List.sum_cons] at this
      calc acc + b.capacity + ((rest.map (fun b => b.capacity)).sum)
          = acc + (b.capacity + (rest.map (fun b => b.capacity)).sum) := by ring
      _ < W := this
    have hcond : ¬ W ≤ acc + b.capacity := by
      intro hWle
      have : acc + b.capacity ≤ acc + b.capacity + ((rest.map (fun b => b.capacity)).sum) := by
        linarith
      linarith
    rw [if_neg hcond]
    exact ih hrest hlt'

end VolatilePlacement

namespace VolatilePlacement

/-! ## Claim C3: the best-bin prefix -/

/-- A zero-total-weight instance: one item of weight `0`, one bin.  The data
model allows weight `0` (weights are only required non-negative). -/
def sZeroW : PState :=
  { items := [{ id := 0, weight := 0, locality := none, possibleBins := [5], mappedTo := none }],
    bins := [{ id := 5, capacity := 1, fixedCost := 0, unitCost := 0, mappedHere := [], preference := 0 }],
    minPref := 0, epsilon := 1/1000 }

/-- C3 counterexample: on a zero-total-demand instance the relaxation returns
the one-element prefix `[5]`, yet the empty prefix — a proper prefix of the
sorted order — already has cumulative capacity `≥` the total item weight, so
the returned prefix is NOT the shortest such prefix and the claimed
minimality over all proper prefixes fails. -/
theorem c3_counterexample :
    bestIdsOfRelax sZeroW = [5] ∧
    totalItemWeight sZeroW.items ≤ prefixCapacity (getBinsSortedByFilledUnitCost sZeroW.bins) 0 ∧
    0 < (bestIdsOfRelax sZeroW).length := by
  refine ⟨by with_unfolding_all rfl, ?_, by with_unfolding_all decide⟩
  rw [prefixCapacity_zero]
  with_unfolding_all decide

/-- C3 (amended): the best-bin set returned by `get_fist_best_bins` is exactly
the shortest NON-EMPTY prefix of the bins sorted ascending by
`filled_unit_cost` whose cumulative capacity is at least the total item
weight: the sorted order is a sorted permutation of the bins, the returned
ids are the first `k ≥ 1` of it, that prefix covers total demand, and no
shorter non-empty prefix does. -/
theorem c3_best_bins_shortest_nonempty_prefix (s : PState) (best : List Nat) (s' : PState)
    (h : getFistBestBins s = .ok (best, s')) :
    (getBinsSortedByFilledUnitCost s.bins).Perm s.bins ∧
    (getBinsSortedByFilledUnitCost s.bins).Sorted filledUnitCostLE ∧
    ∃ k, 1 ≤ k ∧ k ≤ (getBinsSortedByFilledUnitCost s.bins).length ∧
      best = ((getBinsSortedByFilledUnitCost s.bins).take k).map (fun b => b.id) ∧
      totalItemWeight s.items ≤ prefixCapacity (getBinsSortedByFilledUnitCost s.bins) k ∧
      ∀ j, 1 ≤ j → j < k →
        prefixCapacity (getBinsSortedByFilledUnitCost s.bins) j < totalItemWeight s.items := by
  refine ⟨sortedBins_perm s.bins, sortedBins_sorted s.bins, ?_⟩
  unfold getFistBestBins at h
  cases haux : getFistBestBinsAux (totalItemWeight s.items) (getBinsSortedByFilledUnitCost s.bins) 0 []
    with
  | none => rw [haux] at h; cases h
  | some pr =>
    rw [haux] at h
    obtain ⟨bestBins, cap⟩ := pr
    obtain ⟨k, hk1, hkle, hbest, _, hge, hlt⟩ := getFistBestBinsAux_some haux
    have hbest' : best = bestBins.map (fun b => b.id) := by cases h; rfl
    refine ⟨k, hk1, hkle, ?_, ?_, ?_⟩
    · rw [hbest', hbest]
      simp
    · have := hge
      rw [zero_add] at this
      exact this
    · intro j hj1 hjk
      have := hlt j hj1 hjk
      rw [zero_add] at this
      exact this

/-- A two-bin instance whose best-bin set is the full two-element prefix. -/
def sRelaxTwo : PState :=
  { items := [{ id := 0, weight := 12, locality := none, possibleBins := [0, 1], mappedTo := none }],
    bins := [{ id := 0, capacity := 10, fixedCost := 0, unitCost := 1, mappedHere := [], preference := 0 },
             { id := 1, capacity := 10, fixedCost := 0, unitCost := 2, mappedHere := [], preference := 0 }],
    minPref := 0, epsilon := 1/1000 }

/-- The state `get_fist_best_bins` produces on `sRelaxTwo`. -/
def sRelaxTwoOut : PState :=
  { items := [{ id := 0, weight := 12, locality := none, possibleBins := [0, 1], mappedTo := none }],
    bins := [{ id := 0, capacity := 10, fixedCost := 0, unitCost := 1, mappedHere := [], preference := 10 },
             { id := 1, capacity := 10, fixedCost := 0, unitCost := 2, mappedHere := [], preference := 2 }],
    minPref := 2, epsilon := 1/1000 }

/-- Witness for C3 at a concrete positive-demand instance. -/
theorem c3_witness :
    (getBinsSortedByFilledUnitCost sRelaxTwo.bins).Perm sRelaxTwo.bins ∧
    (getBinsSortedByFilledUnitCost sRelaxTwo.bins).Sorted filledUnitCostLE ∧
    ∃ k, 1 ≤ k ∧ k ≤ (getBinsSortedByFilledUnitCost sRelaxTwo.bins).length ∧
      [0, 1] = ((getBinsSortedByFilledUnitCost sRelaxTwo.bins).take k).map (fun b => b.id) ∧
      totalItemWeight sRelaxTwo.items ≤ prefixCapacity (getBinsSortedByFilledUnitCost sRelaxTwo.bins) k ∧
      ∀ j, 1 ≤ j → j < k →
        prefixCapacity (getBinsSortedByFilledUnitCost sRelaxTwo.bins) j < totalItemWeight sRelaxTwo.items :=
  c3_best_bins_shortest_nonempty_prefix sRelaxTwo [0, 1] sRelaxTwoOut (by with_unfolding_all rfl)

/-! ## Claim C4: the rounding case analysis -/

/-- C4: the per-item rounding case analysis of `map_all_items_to_bins`.
If the intersection of the item's possible bins with the best bins is
non-empty, the item is sent to an intersection member of maximal preference;
if it is empty and there is exactly one possible bin, the item is forced
there; if it is empty and there are several possible bins, the distinct
`NotImplementedError` (not an `UnfeasibleBinPacking`, not a default
assignment) is raised; if there is no possible bin at all,
`UnfeasibleBinPacking` naming the item is raised. -/
theorem c4_rounding_case_analysis (s : PState) (bestIds : List Nat) (it : Item) :
    (bestAndPossibleBins s bestIds it ≠ [] →
      ∃ b ∈ bestAndPossibleBins s bestIds it, chooseBinForItem s bestIds it = .ok b.id ∧
        ∀ b' ∈ bestAndPossibleBins s bestIds it, b'.preference ≤ b.preference) ∧
    (∀ bid, bestAndPossibleBins s bestIds it = [] → it.possibleBins = [bid] →
      chooseBinForItem s bestIds it = .ok bid) ∧
    (bestAndPossibleBins s bestIds it = [] → 2 ≤ it.possibleBins.length →
      chooseBinForItem s bestIds it = .error .notImplementedAmbiguousRounding ∧
      MapError.notImplementedAmbiguousRounding.isUnfeasible = false) ∧
    (it.possibleBins = [] →
      chooseBinForItem s bestIds it = .error (.unfeasibleItemUnmappable it.id) ∧
      MapError.unfeasibleItemUnmappable it.id ≠ .notImplementedAmbiguousRounding) := by
  refine ⟨?_, ?_, ?_, ?_⟩
  · intro hne
    cases hc : bestAndPossibleBins s bestIds it with
    | nil => exact absurd hc hne
    | cons c cs =>
      refine ⟨maxByPreference c cs, ?_, ?_, ?_⟩
      · exact maxByPreference_mem c cs
      · unfold chooseBinForItem
        rw [hc]
      · intro b' hb'
        exact maxByPreference_ge c cs b' hb'
  · intro bid hc hp
    unfold chooseBinForItem
    rw [hc, hp]
  · intro hc hlen
    cases hp : it.possibleBins with
    | nil => rw [hp] at hlen; simp at hlen
    | cons x xs =>
      cases xs with
      | nil => rw [hp] at hlen; simp at hlen
      | cons y ys =>
        constructor
        · unfold chooseBinForItem
          rw [hc, hp]
        · rfl
  · intro hp
    have hc : bestAndPossibleBins s bestIds it = [] := by
      unfold bestAndPossibleBins
      rw [hp]
      simp
    constructor
    · unfold chooseBinForItem
      rw [hc, hp]
    · intro h
      cases h

/-- A one-bin state used to exercise the nonempty-intersection branch. -/
def sChooseW : PState :=
  { items := [{ id := 7, weight := 1, locality := none, possibleBins := [0], mappedTo := none }],
    bins := [{ id := 0, capacity := 3, fixedCost := 0, unitCost := 1, mappedHere := [], preference := 4 }],
    minPref := 4, epsilon := 1/1000 }

/-- The item of `sChooseW`. -/
def itChooseW : Item :=
  { id := 7, weight := 1, locality := none, possibleBins := [0], mappedTo := none }

/-- Witness for C4: the nonempty-intersection branch at a concrete instance. -/
theorem c4_witness :
    ∃ b ∈ bestAndPossibleBins sChooseW [0] itChooseW,
      chooseBinForItem sChooseW [0] itChooseW = .ok b.id ∧
      ∀ b' ∈ bestAndPossibleBins sChooseW [0] itChooseW, b'.preference ≤ b.preference :=
  (c4_rounding_case_analysis sChooseW [0] itChooseW).1 (by with_unfolding_all decide)

end VolatilePlacement

namespace VolatilePlacement

/-! ## Claim C6: UnfeasibleBinPacking conditions and propagation -/

theorem pruneOneItem_weight (it : Item) : (pruneOneItem it).weight = it.weight := by
  unfold pruneOneItem
  cases it.locality <;> rfl

theorem pruneOneItem_id (it : Item) : (pruneOneItem it).id = it.id := by
  unfold pruneOneItem
  cases it.locality <;> rfl

theorem pruneOneItem_mappedTo (it : Item) : (pruneOneItem it).mappedTo = it.mappedTo := by
  unfold pruneOneItem
  cases it.locality <;> rfl

theorem minItemWeight_built (inp : Input) :
    minItemWeight (builtItems inp) = minServiceWeight inp := by
  unfold minItemWeight minServiceWeight builtItems
  rw [List.map_map]
  rfl

/-- The building stage once the smallest item weight is known. -/
theorem getBaseBinPackingProblem_of_min {inp : Input} {minw : ℚ}
    (hmin : minServiceWeight inp = some minw) :
    getBaseBinPackingProblem inp =
      (if (builtBins inp minw).isEmpty then .error .unfeasibleNoBinForSmallest
       else .ok { items := (builtItems inp).map
                    (fun it => { it with possibleBins := (builtBins inp minw).map (fun b => b.id) }),
                  bins := builtBins inp minw, minPref := 0, epsilon := epsilonDefault }) := by
  unfold getBaseBinPackingProblem
  rw [minItemWeight_built, hmin]

theorem totalItemWeight_prune (items : List Item) :
    totalItemWeight (prunePossibleMappings items) = totalItemWeight items := by
  unfold totalItemWeight prunePossibleMappings
  rw [List.map_map]
  congr 1
  exact List.map_congr_left (fun it _ => pruneOneItem_weight it)

theorem totalItemWeight_possible_update (inp : Input) (pb : List Nat) :
    totalItemWeight ((builtItems inp).map (fun it => { it with possibleBins := pb })) =
      (inp.serviceNodes.map (fun n => n.weight)).sum := by
  unfold totalItemWeight builtItems
  rw [List.map_map, List.map_map]
  rfl

theorem builtBins_capacities (inp : Input) (minw : ℚ) :
    (builtBins inp minw).map (fun b => b.capacity) =
      (keptInfraNodes inp minw).map (fun n => n.capacity) := by
  unfold builtBins keptInfraNodes
  rw [List.map_map]
  rfl

/-- `solvePhase` once building succeeded. -/
theorem solvePhase_of_build {inp : Input} {s0 : PState}
    (hbuild : getBaseBinPackingProblem inp = .ok s0) :
    solvePhase inp =
      (match getFistBestBins { s0 with items := prunePossibleMappings s0.items } with
       | .error e => .error e
       | .ok (best, s2) =>
         match mapAllItemsToBins best s2 with
         | .error e => .error e
         | .ok s3 => solveLoop (s3.bins.length + 1) best s3) := by
  unfold solvePhase
  rw [hbuild]

/-- `solvePhase` when the relaxation raises. -/
theorem solvePhase_of_relax_err {inp : Input} {s0 : PState} {e : MapError}
    (hbuild : getBaseBinPackingProblem inp = .ok s0)
    (hrelax : getFistBestBins { s0 with items := prunePossibleMappings s0.items } = .error e) :
    solvePhase inp = .error e := by
  rw [solvePhase_of_build hbuild, hrelax]

/-- `solvePhase` once the relaxation succeeded. -/
theorem solvePhase_of_relax {inp : Input} {s0 : PState} {best : List Nat} {s2 : PState}
    (hbuild : getBaseBinPackingProblem inp = .ok s0)
    (hrelax : getFistBestBins { s0 with items := prunePossibleMappings s0.items } = .ok (best, s2)) :
    solvePhase inp =
      (match mapAllItemsToBins best s2 with
       | .error e => .error e
       | .ok s3 => solveLoop (s3.bins.length + 1) best s3) := by
  rw [solvePhase_of_build hbuild, hrelax]

/-- `solvePhase` once the rounding stage succeeded. -/
theorem solvePhase_of_round {inp : Input} {s0 : PState} {best : List Nat} {s2 s3 : PState}
    (hbuild : getBaseBinPackingProblem inp = .ok s0)
    (hrelax : getFistBestBins { s0 with items := prunePossibleMappings s0.items } = .ok (best, s2))
    (hround : mapAllItemsToBins best s2 = .ok s3) :
    solvePhase inp = solveLoop (s3.bins.length + 1) best s3 := by
  rw [solvePhase_of_relax hbuild hrelax, hround]

/-- C6: `UnfeasibleBinPacking` is raised by the building stage exactly when no
bin can host the smallest item, and by the relaxation when the cumulative
capacity of all kept bins stays below the total item weight; in both cases,
and for any error the rounding stage raises, the error is the value `map`
returns — it is never converted into a `worked=false` result. -/
theorem c6_unfeasible_raised_and_propagated :
    (∀ inp minw, inp.infraOk = true → inp.nsOk = true →
      minServiceWeight inp = some minw →
      (∀ n ∈ inp.infraNodes, n.capacity < minw) →
      mapAlg inp = .error .unfeasibleNoBinForSmallest ∧
      MapError.unfeasibleNoBinForSmallest.isUnfeasible = true) ∧
    (∀ inp minw, inp.infraOk = true → inp.nsOk = true →
      minServiceWeight inp = some minw → 0 ≤ minw →
      keptInfraNodes inp minw ≠ [] →
      ((keptInfraNodes inp minw).map (fun n => n.capacity)).sum <
        (inp.serviceNodes.map (fun n => n.weight)).sum →
      mapAlg inp = .error .unfeasibleTotalCapacity ∧
      MapError.unfeasibleTotalCapacity.isUnfeasible = true) ∧
    (∀ inp e, inp.infraOk = true → inp.nsOk = true →
      solvePhase inp = .error e → mapAlg inp = .error e) ∧
    (∀ inp s0 best s2 e, getBaseBinPackingProblem inp = .ok s0 →
      getFistBestBins { s0 with items := prunePossibleMappings s0.items } = .ok (best, s2) →
      mapAllItemsToBins best s2 = .error e →
      solvePhase inp = .error e) := by
  have hmapErr : ∀ inp e, inp.infraOk = true → inp.nsOk = true →
      solvePhase inp = .error e → mapAlg inp = .error e := by
    intro inp e hio hns hsolve
    unfold mapAlg
    rw [hio, hns, hsolve]
    rfl
  refine ⟨?_, ?_, hmapErr, ?_⟩
  · intro inp minw hio hns hmin hcap
    refine ⟨?_, rfl⟩
    have hfilter : inp.infraNodes.filter (fun n => decide (minw ≤ n.capacity)) = [] := by
      rw [List.filter_eq_nil_iff]
      intro n hn
      simp only [decide_eq_true_eq]
      exact not_le.mpr (hcap n hn)
    have hempty : (builtBins inp minw).isEmpty = true := by
      unfold builtBins
      rw [hfilter]
      rfl
    have hbuild : getBaseBinPackingProblem inp = .error .unfeasibleNoBinForSmallest := by
      rw [getBaseBinPackingProblem_of_min hmin, if_pos hempty]
    have hsolve : solvePhase inp = .error .unfeasibleNoBinForSmallest := by
      unfold solvePhase
      rw [hbuild]
    exact hmapErr inp _ hio hns hsolve
  · intro inp minw hio hns hmin hw0 hne hlt
    refine ⟨?_, rfl⟩
    have hnotempty : (builtBins inp minw).isEmpty = false := by
      unfold builtBins
      rw [List.isEmpty_eq_false_iff_exists_mem]
      obtain ⟨n, hn⟩ := List.exists_mem_of_ne_nil _ hne
      exact ⟨_, List.mem_map_of_mem _ hn⟩
    have hbuild : getBaseBinPackingProblem inp = .ok
        { items := (builtItems inp).map
            (fun it => { it with possibleBins := (builtBins inp minw).map (fun b => b.id) }),
          bins := builtBins inp minw, minPref := 0, epsilon := epsilonDefault } := by
      rw [getBaseBinPackingProblem_of_min hmin, if_neg (by rw [hnotempty]; simp)]
    have hkcap : ∀ b ∈ builtBins inp minw, 0 ≤ b.capacity := by
      intro b hb
      unfold builtBins at hb
      obtain ⟨n, hn, rfl⟩ := List.mem_map.mp hb
      have := (List.mem_filter.mp hn).2
      simp only [decide_eq_true_eq] at this
      exact le_trans hw0 this
    set s0 : PState :=
      { items := (builtItems inp).map
          (fun it => { it with possibleBins := (builtBins inp minw).map (fun b => b.id) }),
        bins := builtBins inp minw, minPref := 0, epsilon := epsilonDefault } with hs0
    have hW : totalItemWeight (prunePossibleMappings s0.items) =
        (inp.serviceNodes.map (fun n => n.weight)).sum := by
      rw [totalItemWeight_prune, hs0]
      exact totalItemWeight_possible_update inp _
    have hsorted : ∀ b ∈ getBinsSortedByFilledUnitCost s0.bins, 0 ≤ b.capacity := by
      intro b hb
      exact hkcap b ((sortedBins_perm s0.bins).mem_iff.mp hb)
    have hsum : ((getBinsSortedByFilledUnitCost s0.bins).map (fun b => b.capacity)).sum =
        ((keptInfraNodes inp minw).map (fun n => n.capacity)).sum := by
      have hperm := (sortedBins_perm s0.bins).map (fun b => b.capacity)
      rw [hperm.sum_eq]
      rw [hs0]
      rw [builtBins_capacities]
    have hrelax : getFistBestBins { s0 with items := prunePossibleMappings s0.items } =
        .error .unfeasibleTotalCapacity := by
      unfold getFistBestBins
      have haux : getFistBestBinsAux
          (totalItemWeight (prunePossibleMappings s0.items))
          (getBinsSortedByFilledUnitCost s0.bins) 0 [] = none := by
        apply getFistBestBinsAux_none hsorted
        rw [hsum, hW, zero_add]
        exact hlt
      rw [hW] at haux
      rw [hW]
      rw [haux]
    exact hmapErr inp _ hio hns (solvePhase_of_relax_err hbuild hrelax)
  · intro inp s0 best s2 e hbuild hrelax hround
    rw [solvePhase_of_relax hbuild hrelax, hround]

/-- Scenario B of the spec: one bin of capacity `3`, one item of weight `5`. -/
def inpScenarioB : Input :=
  { infraOk := true, nsOk := true,
    serviceNodes := [{ id := 0, weight := 5, locality := none }],
    infraNodes := [{ id := 0, capacity := 3, fixedCost := 0, unitCost := 0 }] }

/-- Witness for C6: Scenario B raises `UnfeasibleBinPacking` out of `map`. -/
theorem c6_witness :
    mapAlg inpScenarioB = .error .unfeasibleNoBinForSmallest ∧
    MapError.unfeasibleNoBinForSmallest.isUnfeasible = true :=
  c6_unfeasible_raised_and_propagated.1 inpScenarioB 5 rfl rfl (by with_unfolding_all rfl)
    (by intro n hn; fin_cases hn; with_unfolding_all decide)

end VolatilePlacement

namespace VolatilePlacement

/-! ## Claim C1: how often the rounding stage runs -/

theorem solveLoop_succ_err {bestIds : List Nat} {s : PState} {e : MapError} (n : Nat)
    (him : improveLoop s bestIds = .error e) : solveLoop (n + 1) bestIds s = .error e := by
  unfold solveLoop
  rw [him]

theorem solveLoop_succ_ok {bestIds : List Nat} {s s' : PState} (n : Nat)
    (him : improveLoop s bestIds = .ok s') :
    solveLoop (n + 1) bestIds s =
      (match getNewBestBins s' bestIds with
       | .error e => .error e
       | .ok (best', expanded, s'') =>
         if expanded then solveLoop n best' s'' else .ok (best', s'')) := by
  conv_lhs => rw [solveLoop]
  rw [him]

theorem solveLoop_succ_err2 {bestIds : List Nat} {s s' : PState} {e : MapError} (n : Nat)
    (him : improveLoop s bestIds = .ok s')
    (hg : getNewBestBins s' bestIds = .error e) : solveLoop (n + 1) bestIds s = .error e := by
  rw [solveLoop_succ_ok n him, hg]

theorem solveLoop_succ_step {bestIds : List Nat} {s s' : PState} {best' : List Nat}
    {expanded : Bool} {s'' : PState} (n : Nat)
    (him : improveLoop s bestIds = .ok s')
    (hg : getNewBestBins s' bestIds = .ok (best', expanded, s'')) :
    solveLoop (n + 1) bestIds s =
      if expanded then solveLoop n best' s'' else .ok (best', s'') := by
  rw [solveLoop_succ_ok n him, hg]

theorem solveLoopCount_succ_err {bestIds : List Nat} {s : PState} {e : MapError} (n ex : Nat)
    (him : improveLoop s bestIds = .error e) : solveLoopCount (n + 1) bestIds s ex = .error e := by
  unfold solveLoopCount
  rw [him]

theorem solveLoopCount_succ_ok {bestIds : List Nat} {s s' : PState} (n ex : Nat)
    (him : improveLoop s bestIds = .ok s') :
    solveLoopCount (n + 1) bestIds s ex =
      (match getNewBestBins s' bestIds with
       | .error e => .error e
       | .ok (best', expanded, s'') =>
         if expanded then solveLoopCount n best' s'' (ex + 1) else .ok (best', s'', ex)) := by
  conv_lhs => rw [solveLoopCount]
  rw [him]

theorem solveLoopCount_succ_err2 {bestIds : List Nat} {s s' : PState} {e : MapError} (n ex : Nat)
    (him : improveLoop s bestIds = .ok s')
    (hg : getNewBestBins s' bestIds = .error e) :
    solveLoopCount (n + 1) bestIds s ex = .error e := by
  rw [solveLoopCount_succ_ok n ex him, hg]

theorem solveLoopCount_succ_step {bestIds : List Nat} {s s' : PState} {best' : List Nat}
    {expanded : Bool} {s'' : PState} (n ex : Nat)
    (him : improveLoop s bestIds = .ok s')
    (hg : getNewBestBins s' bestIds = .ok (best', expanded, s'')) :
    solveLoopCount (n + 1) bestIds s ex =
      if expanded then solveLoopCount n best' s'' (ex + 1) else .ok (best', s'', ex) := by
  rw [solveLoopCount_succ_ok n ex him, hg]

theorem solveLoop_eq_solveLoopCount (n : Nat) :
    ∀ (bestIds : List Nat) (s : PState) (ex : Nat),
      solveLoop n bestIds s = (solveLoopCount n bestIds s ex).map (fun x => (x.1, x.2.1)) := by
  induction n with
  | zero => intro bestIds s ex; rfl
  | succ n ih =>
    intro bestIds s ex
    cases him : improveLoop s bestIds with
    | error e => rw [solveLoop_succ_err n him, solveLoopCount_succ_err n ex him]; rfl
    | ok s' =>
      cases hg : getNewBestBins s' bestIds with
      | error e => rw [solveLoop_succ_err2 n him hg, solveLoopCount_succ_err2 n ex him hg]; rfl
      | ok t =>
        obtain ⟨best', expanded, s''⟩ := t
        rw [solveLoop_succ_step n him hg, solveLoopCount_succ_step n ex him hg]
        cases expanded
        · rfl
        · simpa using ih best' s'' (ex + 1)

theorem mapTrace_checks_fail {inp : Input} (hc : (!inp.infraOk || !inp.nsOk) = true) :
    mapTrace inp = .ok ({ worked := false }, 0, 0) := by
  unfold mapTrace
  rw [hc]
  rfl

theorem mapAlg_checks_fail {inp : Input} (hc : (!inp.infraOk || !inp.nsOk) = true) :
    mapAlg inp = .ok { worked := false } := by
  unfold mapAlg
  rw [hc]
  rfl

theorem mapAlg_of_checks {inp : Input} (hc : (!inp.infraOk || !inp.nsOk) = false) :
    mapAlg inp =
      (match solvePhase inp with
       | .error e => .error e
       | .ok (_, sF) => finishMap sF) := by
  unfold mapAlg
  rw [hc]
  rfl

theorem mapTrace_of_checks {inp : Input} (hc : (!inp.infraOk || !inp.nsOk) = false) :
    mapTrace inp =
      (match getBaseBinPackingProblem inp with
       | .error e => .error e
       | .ok s0 =>
         match getFistBestBins { s0 with items := prunePossibleMappings s0.items } with
         | .error e => .error e
         | .ok (best, s2) =>
           match mapAllItemsToBins best s2 with
           | .error e => .error e
           | .ok s3 =>
             match solveLoopCount (s3.bins.length + 1) best s3 0 with
             | .error e => .error e
             | .ok (_, sF, ex) => finishTrace sF ex) := by
  unfold mapTrace
  rw [hc]
  rfl

theorem mapTrace_of_build_err {inp : Input} {e : MapError}
    (hc : (!inp.infraOk || !inp.nsOk) = false)
    (hb : getBaseBinPackingProblem inp = .error e) : mapTrace inp = .error e := by
  rw [mapTrace_of_checks hc, hb]

theorem mapTrace_of_build {inp : Input} {s0 : PState}
    (hc : (!inp.infraOk || !inp.nsOk) = false)
    (hb : getBaseBinPackingProblem inp = .ok s0) :
    mapTrace inp =
      (match getFistBestBins { s0 with items := prunePossibleMappings s0.items } with
       | .error e => .error e
       | .ok (best, s2) =>
         match mapAllItemsToBins best s2 with
         | .error e => .error e
         | .ok s3 =>
           match solveLoopCount (s3.bins.length + 1) best s3 0 with
           | .error e => .error e
           | .ok (_, sF, ex) => finishTrace sF ex) := by
  rw [mapTrace_of_checks hc, hb]

theorem mapTrace_of_relax_err {inp : Input} {s0 : PState} {e : MapError}
    (hc : (!inp.infraOk || !inp.nsOk) = false)
    (hb : getBaseBinPackingProblem inp = .ok s0)
    (hr : getFistBestBins { s0 with items := prunePossibleMappings s0.items } = .error e) :
    mapTrace inp = .error e := by
  rw [mapTrace_of_build hc hb, hr]

theorem mapTrace_of_relax {inp : Input} {s0 : PState} {best : List Nat} {s2 : PState}
    (hc : (!inp.infraOk || !inp.nsOk) = false)
    (hb : getBaseBinPackingProblem inp = .ok s0)
    (hr : getFistBestBins { s0 with items := prunePossibleMappings s0.items } = .ok (best, s2)) :
    mapTrace inp =
      (match mapAllItemsToBins best s2 with
       | .error e => .error e
       | .ok s3 =>
         match solveLoopCount (s3.bins.length + 1) best s3 0 with
         | .error e => .error e
         | .ok (_, sF, ex) => finishTrace sF ex) := by
  rw [mapTrace_of_build hc hb, hr]

theorem mapTrace_of_round_err {inp : Input} {s0 : PState} {best : List Nat} {s2 : PState}
    {e : MapError}
    (hc : (!inp.infraOk || !inp.nsOk) = false)
    (hb : getBaseBinPackingProblem inp = .ok s0)
    (hr : getFistBestBins { s0 with items := prunePossibleMappings s0.items } = .ok (best, s2))
    (hm : mapAllItemsToBins best s2 = .error e) : mapTrace inp = .error e := by
  rw [mapTrace_of_relax hc hb hr, hm]

theorem mapTrace_of_round {inp : Input} {s0 : PState} {best : List Nat} {s2 s3 : PState}
    (hc : (!inp.infraOk || !inp.nsOk) = false)
    (hb : getBaseBinPackingProblem inp = .ok s0)
    (hr : getFistBestBins { s0 with items := prunePossibleMappings s0.items } = .ok (best, s2))
    (hm : mapAllItemsToBins best s2 = .ok s3) :
    mapTrace inp =
      (match solveLoopCount (s3.bins.length + 1) best s3 0 with
       | .error e => .error e
       | .ok (_, sF, ex) => finishTrace sF ex) := by
  rw [mapTrace_of_relax hc hb hr, hm]

theorem finishMap_eq_finishTrace (sF : PState) (ex : Nat) :
    finishMap sF = (finishTrace sF ex).map (fun x => x.1) := by
  unfold finishMap finishTrace
  cases checkBinMapping sF with
  | error e => rfl
  | ok o =>
    cases o with
    | none => rfl
    | some v => cases checkOtherConstraints sF <;> rfl

/-- The uninstrumented `map` and the instrumented one agree on the result. -/
theorem mapAlg_eq_mapTrace (inp : Input) :
    mapAlg inp = (mapTrace inp).map (fun x => x.1) := by
  cases hc : (!inp.infraOk || !inp.nsOk) with
  | true =>
    rw [mapAlg_checks_fail hc, mapTrace_checks_fail hc]
    rfl
  | false =>
    rw [mapAlg_of_checks hc]
    cases hb : getBaseBinPackingProblem inp with
    | error e =>
      have hs : solvePhase inp = .error e := by
        unfold solvePhase
        rw [hb]
      rw [hs, mapTrace_of_build_err hc hb]
      rfl
    | ok s0 =>
      cases hr : getFistBestBins { s0 with items := prunePossibleMappings s0.items } with
      | error e =>
        rw [solvePhase_of_relax_err hb hr, mapTrace_of_relax_err hc hb hr]
        rfl
      | ok p =>
        obtain ⟨best, s2⟩ := p
        cases hm : mapAllItemsToBins best s2 with
        | error e =>
          have hs : solvePhase inp = .error e := by
            rw [solvePhase_of_relax hb hr, hm]
          rw [hs, mapTrace_of_round_err hc hb hr hm]
          rfl
        | ok s3 =>
          rw [solvePhase_of_round hb hr hm, mapTrace_of_round hc hb hr hm]
          rw [solveLoop_eq_solveLoopCount (s3.bins.length + 1) best s3 0]
          cases hl : solveLoopCount (s3.bins.length + 1) best s3 0 with
          | error e => rfl
          | ok t =>
            obtain ⟨bF, sF, ex⟩ := t
            exact finishMap_eq_finishTrace sF ex

theorem finishTrace_count {sF : PState} {ex : Nat} {r : MapResult} {rc ex2 : Nat}
    (h : finishTrace sF ex = .ok (r, rc, ex2)) : rc = 1 := by
  cases hk : checkBinMapping sF with
  | error e =>
    rw [show finishTrace sF ex = .error e from by unfold finishTrace; rw [hk]] at h
    cases h
  | ok o =>
    cases o with
    | none =>
      rw [show finishTrace sF ex = .ok ({ worked := false }, 1, ex) from by
        unfold finishTrace; rw [hk]] at h
      simp only [Except.ok.injEq, Prod.mk.injEq] at h
      exact h.2.1.symm
    | some v =>
      cases ho : checkOtherConstraints sF with
      | true =>
        rw [show finishTrace sF ex = .ok ({ worked := true }, 1, ex) from by
          unfold finishTrace; rw [hk, ho]; rfl] at h
        simp only [Except.ok.injEq, Prod.mk.injEq] at h
        exact h.2.1.symm
      | false =>
        rw [show finishTrace sF ex = .error .otherConstraintViolated from by
          unfold finishTrace; rw [hk, ho]; rfl] at h
        cases h

/-- C1 (amended): the rounding stage runs exactly once per solve - before the
first improvement pass - and is NOT re-run after an expansion; only the
improvement loop is re-entered with the enlarged best-bin set.  The
instrumented orchestrator is faithful to `map` and reports one rounding run
on every completed solve, whatever the number of expansions. -/
theorem c1_rounding_runs_once :
    (∀ inp, mapAlg inp = (mapTrace inp).map (fun x => x.1)) ∧
    (∀ inp r rc ex, inp.infraOk = true → inp.nsOk = true →
      mapTrace inp = .ok (r, rc, ex) → rc = 1) := by
  refine ⟨mapAlg_eq_mapTrace, ?_⟩
  intro inp r rc ex hio hns h
  have hc : (!inp.infraOk || !inp.nsOk) = false := by
    rw [hio, hns]
    rfl
  cases hb : getBaseBinPackingProblem inp with
  | error e => rw [mapTrace_of_build_err hc hb] at h; cases h
  | ok s0 =>
    cases hr : getFistBestBins { s0 with items := prunePossibleMappings s0.items } with
    | error e => rw [mapTrace_of_relax_err hc hb hr] at h; cases h
    | ok p =>
      obtain ⟨best, s2⟩ := p
      cases hm : mapAllItemsToBins best s2 with
      | error e => rw [mapTrace_of_round_err hc hb hr hm] at h; cases h
      | ok s3 =>
        rw [mapTrace_of_round hc hb hr hm] at h
        cases hl : solveLoopCount (s3.bins.length + 1) best s3 0 with
        | error e => rw [hl] at h; cases h
        | ok t =>
          obtain ⟨bF, sF, ex2⟩ := t
          rw [hl] at h
          have h2 : finishTrace sF ex2 = .ok (r, rc, ex) := h
          exact finishTrace_count h2

/-- The expansion-then-give-up instance: two bins (ids 0, 1), the first item
is locality-constrained to bin 1 which is too small for it, so after the
rounding and one expansion the heuristic gives up. -/
def inpGaveUp : Input :=
  { infraOk := true, nsOk := true,
    serviceNodes := [{ id := 0, weight := 6, locality := some [1] },
                     { id := 1, weight := 2, locality := none }],
    infraNodes := [{ id := 0, capacity := 10, fixedCost := 0, unitCost := 1 },
                   { id := 1, capacity := 5, fixedCost := 0, unitCost := 1 }] }

/-- C1 counterexample: on `inpGaveUp` one expansion happens (two best-bin
cycles), yet the rounding stage ran exactly once — not once per expansion
cycle as claimed, which would require two runs. -/
theorem c1_counterexample :
    mapTrace inpGaveUp = .ok ({ worked := false }, 1, 1) ∧ (1 : Nat) ≠ 1 + 1 := by
  constructor
  · with_unfolding_all rfl
  · decide

/-- Witness for the amended C1 at the concrete expanding instance. -/
theorem c1_witness : (1 : Nat) = 1 :=
  c1_rounding_runs_once.2 inpGaveUp { worked := false } 1 1 rfl rfl (by with_unfolding_all rfl)

end VolatilePlacement

namespace VolatilePlacement

/-! ## Toolkit for the improvement step -/

theorem nodup_item_key_eq {l : List Item} (hnd : (l.map (fun i => i.id)).Nodup)
    {a b : Item} (ha : a ∈ l) (hb : b ∈ l) (he : a.id = b.id) : a = b := by
  induction l with
  | nil => cases ha
  | cons hd tl ih =>
    rw [List.map_cons, List.nodup_cons] at hnd
    rcases List.mem_cons.mp ha with rfl | ha' <;> rcases List.mem_cons.mp hb with rfl | hb'
    · rfl
    · exact absurd (by rw [he]; exact List.mem_map_of_mem _ hb') hnd.1
    · exact absurd (by rw [← he]; exact List.mem_map_of_mem _ ha') hnd.1
    · exact ih hnd.2 ha' hb'

theorem nodup_bin_key_eq {l : List Bin} (hnd : (l.map (fun b => b.id)).Nodup)
    {a b : Bin} (ha : a ∈ l) (hb : b ∈ l) (he : a.id = b.id) : a = b := by
  induction l with
  | nil => cases ha
  | cons hd tl ih =>
    rw [List.map_cons, List.nodup_cons] at hnd
    rcases List.mem_cons.mp ha with rfl | ha' <;> rcases List.mem_cons.mp hb with rfl | hb'
    · rfl
    · exact absurd (by rw [he]; exact List.mem_map_of_mem _ hb') hnd.1
    · exact absurd (by rw [← he]; exact List.mem_map_of_mem _ ha') hnd.1
    · exact ih hnd.2 ha' hb'

theorem bins_map_ids_of_pres (g : Bin → Bin) (hg : ∀ b, (g b).id = b.id) (bins : List Bin) :
    (bins.map g).map (fun b => b.id) = bins.map (fun b => b.id) := by
  rw [List.map_map]
  exact List.map_congr_left (fun b _ => hg b)

theorem items_map_ids_of_pres (g : Item → Item) (hg : ∀ i, (g i).id = i.id) (items : List Item) :
    (items.map g).map (fun i => i.id) = items.map (fun i => i.id) := by
  rw [List.map_map]
  exact List.map_congr_left (fun i _ => hg i)

theorem mem_bestBinsOf {s : PState} {bestIds : List Nat} {b : Bin} :
    b ∈ bestBinsOf s bestIds ↔ ∃ x, x ∈ bestIds ∧ findBin s.bins x = some b := by
  unfold bestBinsOf
  constructor
  · intro h
    obtain ⟨x, hx, hf⟩ := List.mem_filterMap.mp h
    exact ⟨x, hx, hf⟩
  · intro ⟨x, hx, hf⟩
    exact List.mem_filterMap.mpr ⟨x, hx, hf⟩

theorem bestBinsOf_spec {s : PState} {bestIds : List Nat} {b : Bin}
    (h : b ∈ bestBinsOf s bestIds) : b ∈ s.bins ∧ b.id ∈ bestIds := by
  obtain ⟨x, hx, hf⟩ := mem_bestBinsOf.mp h
  obtain ⟨hmem, hid⟩ := findBin_some hf
  exact ⟨hmem, hid ▸ hx⟩

theorem bestBinsOf_of_mem {s : PState} {bestIds : List Nat}
    (hnb : (s.bins.map (fun b => b.id)).Nodup) {b : Bin}
    (hb : b ∈ s.bins) (hid : b.id ∈ bestIds) : b ∈ bestBinsOf s bestIds :=
  mem_bestBinsOf.mpr ⟨b.id, hid, findBin_mem_nodup hnb hb⟩

theorem mem_overloadingItems {s : PState} {bestIds : List Nat} {it : Item} :
    it ∈ overloadingItems s bestIds ↔
      ∃ b, b ∈ bestBinsOf s bestIds ∧ isOverloaded s.items b = true ∧
        ∃ x, x ∈ b.mappedHere ∧ findItem s.items x = some it := by
  unfold overloadingItems
  constructor
  · intro h
    obtain ⟨b, hb, hit⟩ := List.mem_flatMap.mp h
    obtain ⟨hbb, hov⟩ := List.mem_filter.mp hb
    obtain ⟨x, hx, hfind⟩ := List.mem_filterMap.mp hit
    exact ⟨b, hbb, hov, x, hx, hfind⟩
  · intro ⟨b, hbb, hov, x, hx, hfind⟩
    exact List.mem_flatMap.mpr ⟨b, List.mem_filter.mpr ⟨hbb, hov⟩,
      List.mem_filterMap.mpr ⟨x, hx, hfind⟩⟩

theorem mem_overloadingItems_nodup {s : PState} {bestIds : List Nat} {it : Item}
    (hni : (s.items.map (fun i => i.id)).Nodup) :
    it ∈ overloadingItems s bestIds ↔
      it ∈ s.items ∧ ∃ b, b ∈ bestBinsOf s bestIds ∧ isOverloaded s.items b = true ∧
        it.id ∈ b.mappedHere := by
  rw [mem_overloadingItems]
  constructor
  · intro ⟨b, hbb, hov, x, hx, hfind⟩
    obtain ⟨hmem, hid⟩ := findItem_some hfind
    exact ⟨hmem, b, hbb, hov, hid ▸ hx⟩
  · intro ⟨hmem, b, hbb, hov, hx⟩
    exact ⟨b, hbb, hov, it.id, hx, findItem_mem_nodup hni hmem⟩

theorem mem_candidatePairs {s : PState} {bestIds : List Nat} {c : ℚ} {bid iid : Nat} :
    (c, bid, iid) ∈ candidatePairs s bestIds ↔
      ∃ it, it ∈ overloadingItems s bestIds ∧ ∃ b, b ∈ bestBinsOf s bestIds ∧
        pairCondition s it b = true ∧ c = costOfImprovement s it b ∧
        bid = b.id ∧ iid = it.id := by
  unfold candidatePairs
  constructor
  · intro h
    obtain ⟨it, hit, h2⟩ := List.mem_flatMap.mp h
    obtain ⟨b, hb, heq⟩ := List.mem_map.mp h2
    obtain ⟨hbb, hcond⟩ := List.mem_filter.mp hb
    simp only [Prod.mk.injEq] at heq
    exact ⟨it, hit, b, hbb, hcond, heq.1.symm, heq.2.1.symm, heq.2.2.symm⟩
  · intro ⟨it, hit, b, hbb, hcond, hc, hb, hi⟩
    refine List.mem_flatMap.mpr ⟨it, hit, List.mem_map.mpr ⟨b, List.mem_filter.mpr ⟨hbb, hcond⟩, ?_⟩⟩
    simp only [Prod.mk.injEq]
    exact ⟨hc.symm, hb.symm, hi.symm⟩

theorem candidatePairs_nil_of_empty {s : PState} {bestIds : List Nat}
    (h : overloadingItems s bestIds = []) : candidatePairs s bestIds = [] := by
  unfold candidatePairs
  rw [h]
  rfl

theorem improve_none_of_empty {s : PState} {bestIds : List Nat}
    (h : (overloadingItems s bestIds).isEmpty = true) :
    improveItemToBinMappings s bestIds = .ok none := by
  unfold improveItemToBinMappings
  rw [h]
  rfl

theorem improve_of_nonempty {s : PState} {bestIds : List Nat}
    (h : (overloadingItems s bestIds).isEmpty = false) :
    improveItemToBinMappings s bestIds =
      (match pickCheapest (candidatePairs s bestIds) with
       | none => .ok none
       | some (_, bid, iid) => movePart s bid iid) := by
  unfold improveItemToBinMappings
  rw [h]
  rfl

theorem movePart_of_src {s : PState} {iid : Nat} (bid : Nat) {srcId : Nat}
    (h : (findItem s.items iid).bind (fun i => i.mappedTo) = some srcId) :
    movePart s bid iid =
      (match findBin s.bins srcId with
       | none => .error .inconsistentMappedHere
       | some srcBin =>
         if srcBin.mappedHere.contains iid then
           .ok (some (moveItem s iid srcId bid, iid, bid))
         else .error .inconsistentMappedHere) := by
  unfold movePart
  rw [h]

theorem movePart_elim {s : PState} {bid iid : Nat} {s' : PState} {i2 b2 : Nat}
    (h : movePart s bid iid = .ok (some (s', i2, b2))) :
    ∃ srcId it srcBin,
      findItem s.items iid = some it ∧ it.mappedTo = some srcId ∧
      findBin s.bins srcId = some srcBin ∧ srcBin.mappedHere.contains iid = true ∧
      s' = moveItem s iid srcId bid ∧ i2 = iid ∧ b2 = bid := by
  cases hof : (findItem s.items iid).bind (fun i => i.mappedTo) with
  | none =>
    rw [show movePart s bid iid = .error .inconsistentMappedHere from by
      unfold movePart; rw [hof]] at h
    cases h
  | some srcId =>
    rw [movePart_of_src bid hof] at h
    obtain ⟨it, hfi, hmt⟩ := Option.bind_eq_some.mp hof
    cases hfb : findBin s.bins srcId with
    | none =>
      rw [hfb] at h
      cases h
    | some srcBin =>
      rw [hfb] at h
      have h1 : (if srcBin.mappedHere.contains iid then
          (.ok (some (moveItem s iid srcId bid, iid, bid)) :
            Except MapError (Option (PState × Nat × Nat)))
        else .error .inconsistentMappedHere) = .ok (some (s', i2, b2)) := h
      cases hcont : srcBin.mappedHere.contains iid with
      | false =>
        rw [hcont] at h1
        have h2 : (Except.error MapError.inconsistentMappedHere :
            Except MapError (Option (PState × Nat × Nat))) = .ok (some (s', i2, b2)) := by
          rw [← h1]
          rfl
        cases h2
      | true =>
        rw [hcont] at h1
        have h2 : (Except.ok (some (moveItem s iid srcId bid, iid, bid)) :
            Except MapError (Option (PState × Nat × Nat))) = .ok (some (s', i2, b2)) := by
          rw [← h1]
          rfl
        simp only [Except.ok.injEq, Option.some.injEq, Prod.mk.injEq] at h2
        exact ⟨srcId, it, srcBin, hfi, hmt, hfb, hcont, h2.1.symm, h2.2.1.symm, h2.2.2.symm⟩

theorem movePart_ne_ok_none (s : PState) (bid iid : Nat) : movePart s bid iid ≠ .ok none := by
  intro h
  cases hof : (findItem s.items iid).bind (fun i => i.mappedTo) with
  | none =>
    rw [show movePart s bid iid = .error .inconsistentMappedHere from by
      unfold movePart; rw [hof]] at h
    cases h
  | some srcId =>
    rw [movePart_of_src bid hof] at h
    cases hfb : findBin s.bins srcId with
    | none =>
      rw [hfb] at h
      cases h
    | some srcBin =>
      rw [hfb] at h
      have h1 : (if srcBin.mappedHere.contains iid then
          (.ok (some (moveItem s iid srcId bid, iid, bid)) :
            Except MapError (Option (PState × Nat × Nat)))
        else .error .inconsistentMappedHere) = .ok none := h
      cases hcont : srcBin.mappedHere.contains iid with
      | false =>
        rw [hcont] at h1
        have h2 : (Except.error MapError.inconsistentMappedHere :
            Except MapError (Option (PState × Nat × Nat))) = .ok none := by
          rw [← h1]
          rfl
        cases h2
      | true =>
        rw [hcont] at h1
        have h2 : (Except.ok (some (moveItem s iid srcId bid, iid, bid)) :
            Except MapError (Option (PState × Nat × Nat))) = .ok none := by
          rw [← h1]
          rfl
        simp at h2

theorem improve_some_elim {s : PState} {bestIds : List Nat} {s' : PState} {iid bid : Nat}
    (h : improveItemToBinMappings s bestIds = .ok (some (s', iid, bid))) :
    ∃ c srcId it srcBin,
      pickCheapest (candidatePairs s bestIds) = some (c, bid, iid) ∧
      findItem s.items iid = some it ∧ it.mappedTo = some srcId ∧
      findBin s.bins srcId = some srcBin ∧ srcBin.mappedHere.contains iid = true ∧
      s' = moveItem s iid srcId bid := by
  cases he : (overloadingItems s bestIds).isEmpty with
  | true =>
    have h2 : (Except.ok none : Except MapError (Option (PState × Nat × Nat))) =
        .ok (some (s', iid, bid)) := (improve_none_of_empty he).symm.trans h
    simp at h2
  | false =>
    rw [improve_of_nonempty he] at h
    cases hp : pickCheapest (candidatePairs s bestIds) with
    | none =>
      rw [hp] at h
      have h2 : (Except.ok none : Except MapError (Option (PState × Nat × Nat))) =
          .ok (some (s', iid, bid)) := h
      simp at h2
    | some p =>
      obtain ⟨c, b2, i2⟩ := p
      rw [hp] at h
      have h3 : movePart s b2 i2 = .ok (some (s', iid, bid)) := h
      obtain ⟨srcId, it, srcBin, hfi, hmt, hfb, hcont, hmv, hi, hb⟩ := movePart_elim h3
      subst hi
      subst hb
      exact ⟨c, srcId, it, srcBin, rfl, hfi, hmt, hfb, hcont, hmv⟩

theorem improve_none_iff {s : PState} {bestIds : List Nat} :
    improveItemToBinMappings s bestIds = .ok none ↔ candidatePairs s bestIds = [] := by
  constructor
  · intro h
    cases he : (overloadingItems s bestIds).isEmpty with
    | true =>
      exact candidatePairs_nil_of_empty (List.isEmpty_iff.mp he)
    | false =>
      rw [improve_of_nonempty he] at h
      cases hp : pickCheapest (candidatePairs s bestIds) with
      | none => exact (pickCheapest_eq_none_iff _).mp hp
      | some p =>
        obtain ⟨c, b2, i2⟩ := p
        rw [hp] at h
        have h3 : movePart s b2 i2 = .ok none := h
        exact absurd h3 (movePart_ne_ok_none s b2 i2)
  · intro h
    cases he : (overloadingItems s bestIds).isEmpty with
    | true => exact improve_none_of_empty he
    | false =>
      rw [improve_of_nonempty he, h]
      rfl

end VolatilePlacement

namespace VolatilePlacement

theorem pairCondition_elim {s : PState} {it : Item} {b : Bin} (h : pairCondition s it b = true) :
    doesItemFit s.items b it = true ∧ some b.id ≠ it.mappedTo ∧ b.id ∈ it.possibleBins := by
  unfold pairCondition at h
  simp only [Bool.and_eq_true, decide_eq_true_eq] at h
  refine ⟨h.1.1, h.1.2, ?_⟩
  have := h.2
  simpa using this

theorem moveItem_items_eq (s : PState) (iid srcId dstId : Nat) :
    (moveItem s iid srcId dstId).items =
      s.items.map (fun x => if x.id == iid then { x with mappedTo := some dstId } else x) := rfl

theorem moveItem_bins_eq (s : PState) (iid srcId dstId : Nat) :
    (moveItem s iid srcId dstId).bins =
      s.bins.map (fun y =>
        if y.id == srcId then { y with mappedHere := y.mappedHere.erase iid }
        else if y.id == dstId then { y with mappedHere := y.mappedHere ++ [iid] }
        else y) := rfl

theorem moveItem_items_ids (s : PState) (iid srcId dstId : Nat) :
    (moveItem s iid srcId dstId).items.map (fun i => i.id) = s.items.map (fun i => i.id) := by
  rw [moveItem_items_eq]
  apply items_map_ids_of_pres
  intro i
  dsimp only
  split <;> rfl

theorem moveItem_bins_ids (s : PState) (iid srcId dstId : Nat) :
    (moveItem s iid srcId dstId).bins.map (fun b => b.id) = s.bins.map (fun b => b.id) := by
  rw [moveItem_bins_eq]
  apply bins_map_ids_of_pres
  intro b
  dsimp only
  split
  · rfl
  · split <;> rfl

theorem improve_preserves_inv {s : PState} {bestIds : List Nat} {s' : PState} {iid bid : Nat}
    (hni : (s.items.map (fun i => i.id)).Nodup)
    (hnb : (s.bins.map (fun b => b.id)).Nodup)
    (hinv : BookkeepingInv s)
    (h : improveItemToBinMappings s bestIds = .ok (some (s', iid, bid))) :
    BookkeepingInv s' := by
  obtain ⟨c, srcId, it, srcBin, hp, hfi, hmt, hfb, hcont, hmv⟩ := improve_some_elim h
  obtain ⟨hitmem, hitid⟩ := findItem_some hfi
  obtain ⟨hsbmem, hsbid⟩ := findBin_some hfb
  obtain ⟨hpmem, _⟩ := pickCheapest_spec hp
  obtain ⟨it1, hit1, b1, hb1, hcond, _, hbid, hiid⟩ := mem_candidatePairs.mp hpmem
  have hit1mem : it1 ∈ s.items := ((mem_overloadingItems_nodup hni).mp hit1).1
  have hit1eq : it1 = it := nodup_item_key_eq hni hit1mem hitmem (by rw [← hiid, hitid])
  have hb1mem : b1 ∈ s.bins := (bestBinsOf_spec hb1).1
  obtain ⟨_, hneq, _⟩ := pairCondition_elim hcond
  have hbidne : bid ≠ srcId := by
    intro hEq
    apply hneq
    rw [hit1eq, hmt, ← hbid, hEq]
  subst hmv
  have hmemsrc : iid ∈ srcBin.mappedHere := by simpa using hcont
  have hcount1 : srcBin.mappedHere.count iid ≤ 1 := by
    have := ((hinv.1 it hitmem).1 srcBin hsbmem).2
    rw [hitid] at this
    exact this
  constructor
  · intro it' hit'
    rw [moveItem_items_eq] at hit'
    obtain ⟨x, hx, rfl⟩ := List.mem_map.mp hit'
    by_cases hxid : x.id = iid
    · -- the moved item
      have hxit : x = it := nodup_item_key_eq hni hx hitmem (by rw [hxid, hitid])
      have hbeq : (x.id == iid) = true := by simp [hxid]
      constructor
      · intro b' hb'
        rw [moveItem_bins_eq] at hb'
        obtain ⟨y, hy, rfl⟩ := List.mem_map.mp hb'
        by_cases hysrc : y.id = srcId
        · have hysb : y = srcBin := nodup_bin_key_eq hnb hy hsbmem (by rw [hysrc, hsbid])
          have hybeq : (y.id == srcId) = true := by simp [hysrc]
          simp only [hbeq, hybeq, if_true]
          constructor
          · constructor
            · intro hmem
              exfalso
              have hc1 : srcBin.mappedHere.count iid = 1 :=
                le_antisymm hcount1 (List.count_pos_iff.mpr hmemsrc)
              have : (y.mappedHere.erase iid).count x.id = 0 := by
                rw [hysb, hxid, List.count_erase_self, hc1]
              exact absurd hmem (by rw [hxid] at this ⊢; exact List.count_eq_zero.mp this)
            · intro hmapeq
              exfalso
              simp only [Option.some.injEq] at hmapeq
              exact hbidne (by rw [hmapeq, hysrc])
          · rw [hysb, hxid]
            calc (srcBin.mappedHere.erase iid).count iid
                = srcBin.mappedHere.count iid - 1 := List.count_erase_self iid _
            _ ≤ 1 := by omega
        · by_cases hydst : y.id = bid
          · have hybeq : (y.id == srcId) = false := by simp [hysrc]
            have hybeq2 : (y.id == bid) = true := by simp [hydst]
            simp only [hbeq, hybeq, hybeq2, if_true, Bool.false_eq_true, if_false]
            have hnotin : x.id ∉ y.mappedHere := by
              intro hmem
              have hiff := ((hinv.1 x hx).1 y hy).1
              have := hiff.mp hmem
              rw [hxit, hmt] at this
              simp only [Option.some.injEq] at this
              exact hbidne (by rw [← hydst]; exact this.symm)
            constructor
            · constructor
              · intro _
                simp [hydst]
              · intro _
                rw [hxid]
                simp
            · rw [List.count_append, List.count_singleton]
              have hc0 : y.mappedHere.count x.id = 0 := List.count_eq_zero.mpr hnotin
              rw [hc0, hxid]
              simp
          · have hybeq : (y.id == srcId) = false := by simp [hysrc]
            have hybeq2 : (y.id == bid) = false := by simp [hydst]
            simp only [hbeq, hybeq, hybeq2, Bool.false_eq_true, if_false, if_true]
            have hiff := ((hinv.1 x hx).1 y hy).1
            constructor
            · constructor
              · intro hmem
                exfalso
                have := hiff.mp hmem
                rw [hxit, hmt] at this
                simp only [Option.some.injEq] at this
                exact hysrc (by rw [← this])
              · intro hmapeq
                exfalso
                simp only [Option.some.injEq] at hmapeq
                exact hydst (by rw [← hmapeq])
            · exact ((hinv.1 x hx).1 y hy).2
      · intro bid' hbid'
        simp only [hbeq, if_true] at hbid'
        simp only [Option.some.injEq] at hbid'
        rw [moveItem_bins_ids]
        rw [← hbid']
        rw [hbid]
        exact List.mem_map_of_mem _ hb1mem
    · -- an untouched item
      have hbeq : (x.id == iid) = false := by simp [hxid]
      simp only [hbeq, Bool.false_eq_true, if_false]
      constructor
      · intro b' hb'
        rw [moveItem_bins_eq] at hb'
        obtain ⟨y, hy, rfl⟩ := List.mem_map.mp hb'
        have hiff := ((hinv.1 x hx).1 y hy).1
        have hcnt := ((hinv.1 x hx).1 y hy).2
        by_cases hysrc : y.id = srcId
        · have hybeq : (y.id == srcId) = true := by simp [hysrc]
          simp only [hybeq, if_true]
          constructor
          · rw [List.mem_erase_of_ne hxid]
            exact hiff
          · rw [List.count_erase_of_ne hxid]
            exact hcnt
        · by_cases hydst : y.id = bid
          · have hybeq : (y.id == srcId) = false := by simp [hysrc]
            have hybeq2 : (y.id == bid) = true := by simp [hydst]
            simp only [hybeq, hybeq2, Bool.false_eq_true, if_false, if_true]
            constructor
            · rw [List.mem_append]
              constructor
              · intro hmem
                rcases hmem with hmem | hmem
                · exact hiff.mp hmem
                · simp at hmem
                  exact absurd hmem hxid
              · intro hmapeq
                exact Or.inl (hiff.mpr hmapeq)
            · rw [List.count_append, List.count_singleton]
              have : (iid == x.id) = false := by
                simp only [beq_eq_false_iff_ne, ne_eq]
                intro hEq
                exact hxid hEq.symm
              rw [this]
              simpa using hcnt
          · have hybeq : (y.id == srcId) = false := by simp [hysrc]
            have hybeq2 : (y.id == bid) = false := by simp [hydst]
            simp only [hybeq, hybeq2, Bool.false_eq_true, if_false]
            exact ⟨hiff, hcnt⟩
      · intro bid' hbid'
        rw [moveItem_bins_ids]
        exact (hinv.1 x hx).2 bid' hbid'
  · intro b' hb'
    rw [moveItem_bins_eq] at hb'
    obtain ⟨y, hy, rfl⟩ := List.mem_map.mp hb'
    intro z hz
    rw [moveItem_items_ids]
    by_cases hysrc : y.id = srcId
    · have hybeq : (y.id == srcId) = true := by simp [hysrc]
      simp only [hybeq, if_true] at hz
      exact hinv.2 y hy z (List.erase_subset _ _ hz)
    · by_cases hydst : y.id = bid
      · have hybeq : (y.id == srcId) = false := by simp [hysrc]
        have hybeq2 : (y.id == bid) = true := by simp [hydst]
        simp only [hybeq, hybeq2, Bool.false_eq_true, if_false, if_true] at hz
        rcases List.mem_append.mp hz with hz' | hz'
        · exact hinv.2 y hy z hz'
        · simp at hz'
          rw [hz', ← hitid]
          exact List.mem_map_of_mem _ hitmem
      · have hybeq : (y.id == srcId) = false := by simp [hysrc]
        have hybeq2 : (y.id == bid) = false := by simp [hydst]
        simp only [hybeq, hybeq2, Bool.false_eq_true, if_false] at hz
        exact hinv.2 y hy z hz

end VolatilePlacement

namespace VolatilePlacement

/-! ## Claim C10: assignments stay within possible bins -/

theorem bestAndPossibleBins_spec {s : PState} {bestIds : List Nat} {it : Item} {b : Bin}
    (h : b ∈ bestAndPossibleBins s bestIds it) :
    b ∈ s.bins ∧ b.id ∈ bestIds ∧ b.id ∈ it.possibleBins := by
  unfold bestAndPossibleBins at h
  obtain ⟨x, hx, hf⟩ := List.mem_filterMap.mp h
  obtain ⟨hxb, hxp⟩ := List.mem_filter.mp hx
  obtain ⟨hmem, hid⟩ := findBin_some hf
  subst hid
  exact ⟨hmem, hxb, by simpa using hxp⟩

theorem chooseBinForItem_mem_possible {s : PState} {bestIds : List Nat} {it : Item} {bid : Nat}
    (h : chooseBinForItem s bestIds it = .ok bid) : bid ∈ it.possibleBins := by
  unfold chooseBinForItem at h
  cases hc : bestAndPossibleBins s bestIds it with
  | nil =>
    rw [hc] at h
    cases hp : it.possibleBins with
    | nil =>
      rw [hp] at h
      cases h
    | cons p ps =>
      cases ps with
      | nil =>
        rw [hp] at h
        have h2 : (Except.ok p : Except MapError Nat) = .ok bid := h
        have := Except.ok.inj h2
        rw [← this]
        simp
      | cons q qs =>
        rw [hp] at h
        cases h
  | cons c cs =>
    rw [hc] at h
    have h2 : (Except.ok (maxByPreference c cs).id : Except MapError Nat) = .ok bid := h
    have hb := Except.ok.inj h2
    have hmem : maxByPreference c cs ∈ bestAndPossibleBins s bestIds it := by
      rw [hc]
      exact maxByPreference_mem c cs
    have := (bestAndPossibleBins_spec hmem).2.2
    rw [← hb]
    exact this

theorem assignItemToBin_items_eq (s : PState) (iid bid : Nat) :
    (assignItemToBin s iid bid).items =
      s.items.map (fun x => if x.id == iid then { x with mappedTo := some bid } else x) := rfl

theorem assignItemToBin_bins_eq (s : PState) (iid bid : Nat) :
    (assignItemToBin s iid bid).bins =
      s.bins.map (fun y => if y.id == bid then { y with mappedHere := y.mappedHere ++ [iid] } else y) := rfl

theorem assignItemToBin_items_ids (s : PState) (iid bid : Nat) :
    (assignItemToBin s iid bid).items.map (fun i => i.id) = s.items.map (fun i => i.id) := by
  rw [assignItemToBin_items_eq]
  apply items_map_ids_of_pres
  intro i
  dsimp only
  split <;> rfl

theorem assignItemToBin_bins_ids (s : PState) (iid bid : Nat) :
    (assignItemToBin s iid bid).bins.map (fun b => b.id) = s.bins.map (fun b => b.id) := by
  rw [assignItemToBin_bins_eq]
  apply bins_map_ids_of_pres
  intro b
  dsimp only
  split <;> rfl

theorem mapItemsGo_err {bestIds : List Nat} {p : Item} {rest : List Item} {s : PState}
    {e : MapError} (h : chooseBinForItem s bestIds p = .error e) :
    mapItemsGo bestIds (p :: rest) s = .error e := by
  unfold mapItemsGo
  rw [h]

theorem mapItemsGo_step {bestIds : List Nat} {p : Item} {rest : List Item} {s : PState}
    {bid : Nat} (h : chooseBinForItem s bestIds p = .ok bid) :
    mapItemsGo bestIds (p :: rest) s = mapItemsGo bestIds rest (assignItemToBin s p.id bid) := by
  conv_lhs => rw [mapItemsGo]
  rw [h]

theorem mapItemsGo_assigned_in_possible (bestIds : List Nat) :
    ∀ (l : List Item) (s s' : PState),
      (s.items.map (fun i => i.id)).Nodup →
      (∀ p ∈ l, ∃ q ∈ s.items, q.id = p.id ∧ q.possibleBins = p.possibleBins) →
      (∀ q ∈ s.items, q.id ∈ l.map (fun i => i.id) ∨
        ∀ bid, q.mappedTo = some bid → bid ∈ q.possibleBins) →
      mapItemsGo bestIds l s = .ok s' → AssignedInPossible s' := by
  intro l
  induction l with
  | nil =>
    intro s s' hnd hcorr hrest h
    have h2 : s = s' := Except.ok.inj h
    subst h2
    intro q hq bid hbid
    rcases hrest q hq with hin | hok
    · simp at hin
    · exact hok bid hbid
  | cons p rest ih =>
    intro s s' hnd hcorr hrest h
    cases hcb : chooseBinForItem s bestIds p with
    | error e =>
      rw [mapItemsGo_err hcb] at h
      cases h
    | ok bid =>
      rw [mapItemsGo_step hcb] at h
      have hbp : bid ∈ p.possibleBins := chooseBinForItem_mem_possible hcb
      apply ih (assignItemToBin s p.id bid) s' ?_ ?_ ?_ h
      · rw [assignItemToBin_items_ids]
        exact hnd
      · intro p' hp'
        obtain ⟨q, hq, hqid, hqpb⟩ := hcorr p' (List.mem_cons_of_mem _ hp')
        refine ⟨(fun x => if x.id == p.id then { x with mappedTo := some bid } else x) q,
          ?_, ?_, ?_⟩
        · rw [assignItemToBin_items_eq]
          exact List.mem_map_of_mem _ hq
        · dsimp only
          split <;> simpa using hqid
        · dsimp only
          split <;> simpa using hqpb
      · intro q2 hq2
        rw [assignItemToBin_items_eq] at hq2
        obtain ⟨q, hq, rfl⟩ := List.mem_map.mp hq2
        by_cases hqid : q.id = p.id
        · right
          have hbeq : (q.id == p.id) = true := by simp [hqid]
          simp only [hbeq, if_true]
          intro bid' hbid'
          simp only [Option.some.injEq] at hbid'
          obtain ⟨q', hq', hq'id, hq'pb⟩ := hcorr p (List.mem_cons_self _ _)
          have hqq' : q = q' := nodup_item_key_eq hnd hq hq' (by rw [hqid, hq'id])
          show bid' ∈ q.possibleBins
          rw [← hbid', hqq', hq'pb]
          exact hbp
        · have hbeq : (q.id == p.id) = false := by simp [hqid]
          simp only [hbeq, Bool.false_eq_true, if_false]
          rcases hrest q hq with hin | hok
          · rw [List.map_cons] at hin
            rcases List.mem_cons.mp hin with he | hin'
            · exact absurd he hqid
            · exact Or.inl hin'
          · exact Or.inr hok

theorem improve_preserves_assignedInPossible {s : PState} {bestIds : List Nat} {s' : PState}
    {iid bid : Nat}
    (hni : (s.items.map (fun i => i.id)).Nodup)
    (hap : AssignedInPossible s)
    (h : improveItemToBinMappings s bestIds = .ok (some (s', iid, bid))) :
    AssignedInPossible s' := by
  obtain ⟨c, srcId, it, srcBin, hp, hfi, hmt, hfb, hcont, hmv⟩ := improve_some_elim h
  obtain ⟨hpmem, _⟩ := pickCheapest_spec hp
  obtain ⟨it1, hit1, b1, hb1, hcond, _, hbid, hiid⟩ := mem_candidatePairs.mp hpmem
  have hit1mem : it1 ∈ s.items := ((mem_overloadingItems_nodup hni).mp hit1).1
  obtain ⟨_, _, hposs⟩ := pairCondition_elim hcond
  subst hmv
  intro it' hit' bid' hbid'
  rw [moveItem_items_eq] at hit'
  obtain ⟨x, hx, rfl⟩ := List.mem_map.mp hit'
  by_cases hxid : x.id = iid
  · have hbeq : (x.id == iid) = true := by simp [hxid]
    simp only [hbeq, if_true] at hbid' ⊢
    have hbid2 : bid = bid' := by simpa using hbid'
    have hxeq1 : x = it1 := nodup_item_key_eq hni hx hit1mem (by rw [hxid, hiid])
    show bid' ∈ x.possibleBins
    rw [← hbid2, hbid, hxeq1]
    exact hposs
  · have hbeq : (x.id == iid) = false := by simp [hxid]
    simp only [hbeq, Bool.false_eq_true, if_false] at hbid' ⊢
    exact hap x hx bid' hbid'

/-- C10: whenever an item's assignment is set by the rounding stage or moved
by an improvement step, the assigned bin is one of the item's possible bins:
the rounding stage establishes the invariant outright (both of its assigning
branches pick from `possible_bins`), and every accepted improvement move
re-targets the moved item to a bin of its `possible_bins`, so the invariant
is preserved. -/
theorem c10_assignment_within_possible_bins :
    (∀ s bestIds s', (s.items.map (fun i => i.id)).Nodup →
       mapAllItemsToBins bestIds s = .ok s' → AssignedInPossible s') ∧
    (∀ s bestIds s' iid bid, (s.items.map (fun i => i.id)).Nodup →
       AssignedInPossible s →
       improveItemToBinMappings s bestIds = .ok (some (s', iid, bid)) →
       AssignedInPossible s') := by
  constructor
  · intro s bestIds s' hnd h
    apply mapItemsGo_assigned_in_possible bestIds s.items s s' hnd ?_ ?_ h
    · intro p hp
      exact ⟨p, hp, rfl, rfl⟩
    · intro q hq
      exact Or.inl (List.mem_map_of_mem _ hq)
  · intro s bestIds s' iid bid hnd hap h
    exact improve_preserves_assignedInPossible hnd hap h

/-- Witness state for C10: the rounding of `sRelaxTwoOut` with best bins `[0, 1]`. -/
def sRoundTwoOut : PState :=
  { items := [{ id := 0, weight := 12, locality := none, possibleBins := [0, 1], mappedTo := some 0 }],
    bins := [{ id := 0, capacity := 10, fixedCost := 0, unitCost := 1, mappedHere := [0], preference := 10 },
             { id := 1, capacity := 10, fixedCost := 0, unitCost := 2, mappedHere := [], preference := 2 }],
    minPref := 2, epsilon := 1/1000 }

/-- Witness for C10: rounding the concrete two-bin instance yields a state in
which every assigned bin is among the item's possible bins. -/
theorem c10_witness : AssignedInPossible sRoundTwoOut :=
  c10_assignment_within_possible_bins.1 sRelaxTwoOut [0, 1] sRoundTwoOut
    (by with_unfolding_all decide) (by with_unfolding_all rfl)

end VolatilePlacement

namespace VolatilePlacement

/-! ## Claim C7: the bidirectional bookkeeping invariant -/

theorem mapItemsGo_establishes_inv (bestIds : List Nat) :
    ∀ (l : List Item) (s s' : PState),
      (s.items.map (fun i => i.id)).Nodup →
      (s.bins.map (fun b => b.id)).Nodup →
      (l.map (fun i => i.id)).Nodup →
      (∀ p ∈ l, ∃ q ∈ s.items, q.id = p.id ∧ q.possibleBins = p.possibleBins) →
      (∀ p ∈ l, ∀ x ∈ p.possibleBins, x ∈ s.bins.map (fun b => b.id)) →
      (∀ q ∈ s.items, q.id ∈ l.map (fun i => i.id) →
        q.mappedTo = none ∧ ∀ b ∈ s.bins, q.id ∉ b.mappedHere) →
      (∀ q ∈ s.items, q.id ∉ l.map (fun i => i.id) →
        (∀ b ∈ s.bins, (q.id ∈ b.mappedHere ↔ q.mappedTo = some b.id) ∧
          b.mappedHere.count q.id ≤ 1) ∧
        (∀ bid, q.mappedTo = some bid → bid ∈ s.bins.map (fun b => b.id))) →
      (∀ b ∈ s.bins, ∀ z ∈ b.mappedHere, z ∈ s.items.map (fun i => i.id)) →
      mapItemsGo bestIds l s = .ok s' → BookkeepingInv s' := by
  intro l
  induction l with
  | nil =>
    intro s s' hni hnb hnl hcorr hposs hpend hdone hghost h
    have h2 : s = s' := Except.ok.inj h
    subst h2
    exact ⟨fun q hq => hdone q hq (by simp), hghost⟩
  | cons p rest ih =>
    intro s s' hni hnb hnl hcorr hposs hpend hdone hghost h
    cases hcb : chooseBinForItem s bestIds p with
    | error e =>
      rw [mapItemsGo_err hcb] at h
      cases h
    | ok bid =>
      rw [mapItemsGo_step hcb] at h
      have hbp : bid ∈ p.possibleBins := chooseBinForItem_mem_possible hcb
      have hbin : bid ∈ s.bins.map (fun b => b.id) := hposs p (List.mem_cons_self _ _) bid hbp
      have hpnotrest : p.id ∉ rest.map (fun i => i.id) := by
        rw [List.map_cons, List.nodup_cons] at hnl
        exact hnl.1
      have hrestnodup : (rest.map (fun i => i.id)).Nodup := by
        rw [List.map_cons, List.nodup_cons] at hnl
        exact hnl.2
      apply ih (assignItemToBin s p.id bid) s' ?_ ?_ hrestnodup ?_ ?_ ?_ ?_ ?_ h
      · rw [assignItemToBin_items_ids]
        exact hni
      · rw [assignItemToBin_bins_ids]
        exact hnb
      · intro p' hp'
        obtain ⟨q, hq, hqid, hqpb⟩ := hcorr p' (List.mem_cons_of_mem _ hp')
        refine ⟨(fun x => if x.id == p.id then { x with mappedTo := some bid } else x) q,
          ?_, ?_, ?_⟩
        · rw [assignItemToBin_items_eq]
          exact List.mem_map_of_mem _ hq
        · dsimp only
          split <;> simpa using hqid
        · dsimp only
          split <;> simpa using hqpb
      · intro p' hp' x hx
        rw [assignItemToBin_bins_ids]
        exact hposs p' (List.mem_cons_of_mem _ hp') x hx
      · -- pending items stay clean
        intro q2 hq2 hq2in
        rw [assignItemToBin_items_eq] at hq2
        obtain ⟨q, hq, rfl⟩ := List.mem_map.mp hq2
        have hqid : q.id ≠ p.id := by
          intro hEq
          apply hpnotrest
          have : (if (q.id == p.id) = true then
              { q with mappedTo := some bid } else q).id = q.id := by
            split <;> rfl
          rw [this] at hq2in
          rw [← hEq]
          exact hq2in
        have hbeq : (q.id == p.id) = false := by simp [hqid]
        simp only [hbeq, Bool.false_eq_true, if_false] at hq2in ⊢
        have hqin : q.id ∈ (p :: rest).map (fun i => i.id) := by
          rw [List.map_cons]
          exact List.mem_cons_of_mem _ hq2in
        obtain ⟨hqnone, hqabsent⟩ := hpend q hq hqin
        refine ⟨hqnone, ?_⟩
        intro b2 hb2
        rw [assignItemToBin_bins_eq] at hb2
        obtain ⟨y, hy, rfl⟩ := List.mem_map.mp hb2
        by_cases hyb : y.id = bid
        · have hybeq : (y.id == bid) = true := by simp [hyb]
          simp only [hybeq, if_true]
          intro hmem
          rcases List.mem_append.mp hmem with hmem' | hmem'
          · exact hqabsent y hy hmem'
          · simp at hmem'
            exact hqid hmem'
        · have hybeq : (y.id == bid) = false := by simp [hyb]
          simp only [hybeq, Bool.false_eq_true, if_false]
          exact hqabsent y hy
      · -- processed items satisfy the invariant
        intro q2 hq2 hq2nin
        rw [assignItemToBin_items_eq] at hq2
        obtain ⟨q, hq, rfl⟩ := List.mem_map.mp hq2
        by_cases hqid : q.id = p.id
        · -- the freshly assigned item
          have hbeq : (q.id == p.id) = true := by simp [hqid]
          simp only [hbeq, if_true] at hq2nin ⊢
          obtain ⟨hqnone, hqabsent⟩ := hpend q hq (by
            rw [List.map_cons, hqid]
            exact List.mem_cons_self _ _)
          constructor
          · intro b2 hb2
            rw [assignItemToBin_bins_eq] at hb2
            obtain ⟨y, hy, rfl⟩ := List.mem_map.mp hb2
            by_cases hyb : y.id = bid
            · have hybeq : (y.id == bid) = true := by simp [hyb]
              simp only [hybeq, if_true]
              constructor
              · constructor
                · intro _
                  simp [hyb]
                · intro _
                  simp [hqid]
              · rw [List.count_append, List.count_singleton]
                have hc0 : y.mappedHere.count q.id = 0 :=
                  List.count_eq_zero.mpr (hqabsent y hy)
                rw [hc0]
                split <;> omega
            · have hybeq : (y.id == bid) = false := by simp [hyb]
              simp only [hybeq, Bool.false_eq_true, if_false]
              constructor
              · constructor
                · intro hmem
                  exact absurd hmem (hqabsent y hy)
                · intro hmapeq
                  exfalso
                  simp only [Option.some.injEq] at hmapeq
                  exact hyb hmapeq.symm
              · have hc0 : y.mappedHere.count q.id = 0 :=
                  List.count_eq_zero.mpr (hqabsent y hy)
                rw [hc0]
                omega
          · intro bid' hbid'
            simp only [Option.some.injEq] at hbid'
            rw [assignItemToBin_bins_ids, ← hbid']
            exact hbin
        · -- an already processed item
          have hbeq : (q.id == p.id) = false := by simp [hqid]
          simp only [hbeq, Bool.false_eq_true, if_false] at hq2nin ⊢
          have hqnin : q.id ∉ (p :: rest).map (fun i => i.id) := by
            rw [List.map_cons]
            intro hmem
            rcases List.mem_cons.mp hmem with he | hin'
            · exact hqid he
            · exact hq2nin hin'
          obtain ⟨hiffc, hvalid⟩ := hdone q hq hqnin
          constructor
          · intro b2 hb2
            rw [assignItemToBin_bins_eq] at hb2
            obtain ⟨y, hy, rfl⟩ := List.mem_map.mp hb2
            obtain ⟨hiff, hcnt⟩ := hiffc y hy
            by_cases hyb : y.id = bid
            · have hybeq : (y.id == bid) = true := by simp [hyb]
              simp only [hybeq, if_true]
              constructor
              · rw [List.mem_append]
                constructor
                · intro hmem
                  rcases hmem with hmem' | hmem'
                  · exact hiff.mp hmem'
                  · simp at hmem'
                    exact absurd hmem' hqid
                · intro hmapeq
                  exact Or.inl (hiff.mpr hmapeq)
              · rw [List.count_append, List.count_singleton]
                have : (p.id == q.id) = false := by
                  simp only [beq_eq_false_iff_ne, ne_eq]
                  intro hEq
                  exact hqid hEq.symm
                rw [this]
                simpa using hcnt
            · have hybeq : (y.id == bid) = false := by simp [hyb]
              simp only [hybeq, Bool.false_eq_true, if_false]
              exact ⟨hiff, hcnt⟩
          · intro bid' hbid'
            rw [assignItemToBin_bins_ids]
            exact hvalid bid' hbid'
      · -- ghost clause
        intro b2 hb2 z hz
        rw [assignItemToBin_bins_eq] at hb2
        obtain ⟨y, hy, rfl⟩ := List.mem_map.mp hb2
        rw [assignItemToBin_items_ids]
        by_cases hyb : y.id = bid
        · have hybeq : (y.id == bid) = true := by simp [hyb]
          simp only [hybeq, if_true] at hz
          rcases List.mem_append.mp hz with hz' | hz'
          · exact hghost y hy z hz'
          · simp at hz'
            obtain ⟨q', hq', hq'id, _⟩ := hcorr p (List.mem_cons_self _ _)
            rw [hz', ← hq'id]
            exact List.mem_map_of_mem _ hq'
        · have hybeq : (y.id == bid) = false := by simp [hyb]
          simp only [hybeq, Bool.false_eq_true, if_false] at hz
          exact hghost y hy z hz

/-- C7: the bidirectional bookkeeping invariant — an item's `mapped_to` is set
iff that bin's `mapped_here` holds the item (then exactly once, and the
assigned bin exists) — is established by the rounding stage from the freshly
built (clean) solve state, and preserved by every accepted local-search move. -/
theorem c7_bookkeeping_invariant :
    (∀ s bestIds s',
      (s.items.map (fun i => i.id)).Nodup →
      (s.bins.map (fun b => b.id)).Nodup →
      (∀ q ∈ s.items, q.mappedTo = none) →
      (∀ b ∈ s.bins, b.mappedHere = []) →
      (∀ q ∈ s.items, ∀ x ∈ q.possibleBins, x ∈ s.bins.map (fun b => b.id)) →
      mapAllItemsToBins bestIds s = .ok s' → BookkeepingInv s') ∧
    (∀ s bestIds s' iid bid,
      (s.items.map (fun i => i.id)).Nodup →
      (s.bins.map (fun b => b.id)).Nodup →
      BookkeepingInv s →
      improveItemToBinMappings s bestIds = .ok (some (s', iid, bid)) → BookkeepingInv s') := by
  constructor
  · intro s bestIds s' hni hnb hclean hempty hposs h
    apply mapItemsGo_establishes_inv bestIds s.items s s' hni hnb hni ?_ ?_ ?_ ?_ ?_ h
    · intro p hp
      exact ⟨p, hp, rfl, rfl⟩
    · intro p hp x hx
      exact hposs p hp x hx
    · intro q hq _
      refine ⟨hclean q hq, ?_⟩
      intro b hb
      rw [hempty b hb]
      simp
    · intro q hq hqnin
      exact absurd (List.mem_map_of_mem _ hq) hqnin
    · intro b hb z hz
      rw [hempty b hb] at hz
      cases hz
  · intro s bestIds s' iid bid hni hnb hinv h
    exact improve_preserves_inv hni hnb hinv h

/-- Witness for C7: rounding the concrete two-bin instance from its clean
relaxed state establishes the bookkeeping invariant. -/
theorem c7_witness : BookkeepingInv sRoundTwoOut :=
  c7_bookkeeping_invariant.1 sRelaxTwoOut [0, 1] sRoundTwoOut
    (by with_unfolding_all decide) (by with_unfolding_all decide)
    (by with_unfolding_all decide) (by with_unfolding_all decide)
    (by with_unfolding_all decide) (by with_unfolding_all rfl)

end VolatilePlacement

namespace VolatilePlacement

/-! ## Claim C5: the single improvement step -/

theorem pairCondition_intro {s : PState} {it : Item} {b : Bin}
    (h1 : doesItemFit s.items b it = true) (h2 : some b.id ≠ it.mappedTo)
    (h3 : b.id ∈ it.possibleBins) : pairCondition s it b = true := by
  unfold pairCondition
  simp only [Bool.and_eq_true, decide_eq_true_eq]
  exact ⟨⟨h1, h2⟩, by simpa using h3⟩

/-- C5: one call of `improve_item_to_bin_mappings` examines exactly the
(item, alternative bin) pairs where the item sits in an overloaded best bin
and the alternative is a best bin other than the item's current bin, lies in
the item's possible bins and fits it at its current load; it returns no-move
exactly when no such pair exists, and otherwise performs exactly one move of
a globally cheapest pair: the chosen pair is a candidate whose cost is `≤`
every candidate's cost, the moved item leaves its old bin's membership,
enters the target bin's membership and gets its assignment re-pointed. -/
theorem c5_improvement_step (s : PState) (bestIds : List Nat)
    (hni : (s.items.map (fun i => i.id)).Nodup)
    (hnb : (s.bins.map (fun b => b.id)).Nodup)
    (hinv : BookkeepingInv s) :
    (∀ it, it ∈ overloadingItems s bestIds ↔
        it ∈ s.items ∧ ∃ b, b ∈ bestBinsOf s bestIds ∧ isOverloaded s.items b = true ∧
          it.id ∈ b.mappedHere) ∧
    (∀ c bid iid, (c, bid, iid) ∈ candidatePairs s bestIds ↔
        ∃ it, it ∈ overloadingItems s bestIds ∧ ∃ b, b ∈ bestBinsOf s bestIds ∧
          doesItemFit s.items b it = true ∧ some b.id ≠ it.mappedTo ∧ b.id ∈ it.possibleBins ∧
          c = costOfImprovement s it b ∧ bid = b.id ∧ iid = it.id) ∧
    (improveItemToBinMappings s bestIds = .ok none ↔ candidatePairs s bestIds = []) ∧
    (∀ s' iid bid, improveItemToBinMappings s bestIds = .ok (some (s', iid, bid)) →
        ∃ c srcId, (c, bid, iid) ∈ candidatePairs s bestIds ∧
          (∀ q ∈ candidatePairs s bestIds, c ≤ q.1) ∧
          (∃ it ∈ s.items, it.id = iid ∧ it.mappedTo = some srcId) ∧
          s' = moveItem s iid srcId bid ∧
          (∀ it' ∈ s'.items, it'.id = iid → it'.mappedTo = some bid) ∧
          (∀ b' ∈ s'.bins, (b'.id = bid → iid ∈ b'.mappedHere) ∧
            (b'.id = srcId → iid ∉ b'.mappedHere))) := by
  refine ⟨?_, ?_, improve_none_iff, ?_⟩
  · intro it
    rw [mem_overloadingItems_nodup hni]
  · intro c bid iid
    rw [mem_candidatePairs]
    constructor
    · intro ⟨it, hit, b, hb, hcond, hc, hbid, hiid⟩
      obtain ⟨h1, h2, h3⟩ := pairCondition_elim hcond
      exact ⟨it, hit, b, hb, h1, h2, h3, hc, hbid, hiid⟩
    · intro ⟨it, hit, b, hb, h1, h2, h3, hc, hbid, hiid⟩
      exact ⟨it, hit, b, hb, pairCondition_intro h1 h2 h3, hc, hbid, hiid⟩
  · intro s' iid bid h
    obtain ⟨c, srcId, it, srcBin, hp, hfi, hmt, hfb, hcont, hmv⟩ := improve_some_elim h
    obtain ⟨hitmem, hitid⟩ := findItem_some hfi
    obtain ⟨hsbmem, hsbid⟩ := findBin_some hfb
    obtain ⟨hpmem, hpmin⟩ := pickCheapest_spec hp
    obtain ⟨it1, hit1, b1, hb1, hcond, _, hbid, hiid⟩ := mem_candidatePairs.mp hpmem
    have hit1mem : it1 ∈ s.items := ((mem_overloadingItems_nodup hni).mp hit1).1
    have hit1eq : it1 = it := nodup_item_key_eq hni hit1mem hitmem (by rw [← hiid, hitid])
    have hb1mem : b1 ∈ s.bins := (bestBinsOf_spec hb1).1
    obtain ⟨_, hneq, _⟩ := pairCondition_elim hcond
    have hbidne : bid ≠ srcId := by
      intro hEq
      apply hneq
      rw [hit1eq, hmt, ← hbid, hEq]
    have hmemsrc : iid ∈ srcBin.mappedHere := by simpa using hcont
    have hcount1 : srcBin.mappedHere.count iid ≤ 1 := by
      have := ((hinv.1 it hitmem).1 srcBin hsbmem).2
      rw [hitid] at this
      exact this
    refine ⟨c, srcId, hpmem, hpmin, ⟨it, hitmem, hitid, hmt⟩, hmv, ?_, ?_⟩
    · intro it' hit' hid
      rw [hmv, moveItem_items_eq] at hit'
      obtain ⟨x, hx, rfl⟩ := List.mem_map.mp hit'
      by_cases hxid : x.id = iid
      · have hbeq : (x.id == iid) = true := by simp [hxid]
        simp only [hbeq, if_true]
      · have hbeq : (x.id == iid) = false := by simp [hxid]
        simp only [hbeq, Bool.false_eq_true, if_false] at hid ⊢
        exact absurd hid hxid
    · intro b' hb'
      rw [hmv, moveItem_bins_eq] at hb'
      obtain ⟨y, hy, rfl⟩ := List.mem_map.mp hb'
      by_cases hysrc : y.id = srcId
      · have hysb : y = srcBin := nodup_bin_key_eq hnb hy hsbmem (by rw [hysrc, hsbid])
        have hybeq : (y.id == srcId) = true := by simp [hysrc]
        simp only [hybeq, if_true]
        constructor
        · intro hpre
          exact absurd (by rw [← hpre, hysrc] : bid = srcId) hbidne
        · intro _
          have hc1 : srcBin.mappedHere.count iid = 1 :=
            le_antisymm hcount1 (List.count_pos_iff.mpr hmemsrc)
          have hz : (y.mappedHere.erase iid).count iid = 0 := by
            rw [hysb, List.count_erase_self, hc1]
          exact List.count_eq_zero.mp hz
      · by_cases hydst : y.id = bid
        · have hybeq : (y.id == srcId) = false := by simp [hysrc]
          have hybeq2 : (y.id == bid) = true := by simp [hydst]
          simp only [hybeq, hybeq2, Bool.false_eq_true, if_false, if_true]
          constructor
          · intro _
            simp
          · intro hpre
            exact absurd (by rw [← hpre, hydst] : bid = srcId) hbidne
        · have hybeq : (y.id == srcId) = false := by simp [hysrc]
          have hybeq2 : (y.id == bid) = false := by simp [hydst]
          simp only [hybeq, hybeq2, Bool.false_eq_true, if_false]
          exact ⟨fun hpre => absurd hpre hydst, fun hpre => absurd hpre hysrc⟩

/-- The state right after rounding on the objective-increasing instance. -/
def sRoundMoreCost : PState :=
  { items := [{ id := 0, weight := 6, locality := none, possibleBins := [0, 1], mappedTo := some 0 },
              { id := 1, weight := 6, locality := none, possibleBins := [0, 1], mappedTo := some 0 }],
    bins := [{ id := 0, capacity := 10, fixedCost := 0, unitCost := 1, mappedHere := [0, 1], preference := 10 },
             { id := 1, capacity := 10, fixedCost := 0, unitCost := 2, mappedHere := [], preference := 2 }],
    minPref := 2, epsilon := 1/1000 }

/-- The fixed point the repair loop reaches from `sRoundMoreCost`. -/
def sFixMoreCost : PState :=
  { items := [{ id := 0, weight := 6, locality := none, possibleBins := [0, 1], mappedTo := some 1 },
              { id := 1, weight := 6, locality := none, possibleBins := [0, 1], mappedTo := some 0 }],
    bins := [{ id := 0, capacity := 10, fixedCost := 0, unitCost := 1, mappedHere := [1], preference := 10 },
             { id := 1, capacity := 10, fixedCost := 0, unitCost := 2, mappedHere := [0], preference := 2 }],
    minPref := 2, epsilon := 1/1000 }

/-- Witness for C5 at a concrete overloaded state: the step moves item 0 to
bin 1 and that pair is a cheapest candidate. -/
theorem c5_witness :
    ∃ c srcId, (c, 1, 0) ∈ candidatePairs sRoundMoreCost [0, 1] ∧
      (∀ q ∈ candidatePairs sRoundMoreCost [0, 1], c ≤ q.1) ∧
      (∃ it ∈ sRoundMoreCost.items, it.id = 0 ∧ it.mappedTo = some srcId) ∧
      sFixMoreCost = moveItem sRoundMoreCost 0 srcId 1 ∧
      (∀ it' ∈ sFixMoreCost.items, it'.id = 0 → it'.mappedTo = some 1) ∧
      (∀ b' ∈ sFixMoreCost.bins, (b'.id = 1 → (0 : Nat) ∈ b'.mappedHere) ∧
        (b'.id = srcId → (0 : Nat) ∉ b'.mappedHere)) :=
  (c5_improvement_step sRoundMoreCost [0, 1] (by with_unfolding_all decide)
    (by with_unfolding_all decide) (by with_unfolding_all decide)).2.2.2
    sFixMoreCost 0 1 (by with_unfolding_all rfl)

/-! ## The cost delta of an accepted repair move (claim C2) -/

/-- The bin updater of the accepted move, as a named function. -/
def moveBinUpd (iid srcId dstId : Nat) (y : Bin) : Bin :=
  if y.id == srcId then { y with mappedHere := y.mappedHere.erase iid }
  else if y.id == dstId then { y with mappedHere := y.mappedHere ++ [iid] }
  else y

/-- The item updater of the accepted move, as a named function. -/
def moveItemUpd (iid dstId : Nat) (x : Item) : Item :=
  if x.id == iid then { x with mappedTo := some dstId } else x

theorem moveItem_bins_upd (s : PState) (iid srcId dstId : Nat) :
    (moveItem s iid srcId dstId).bins = s.bins.map (moveBinUpd iid srcId dstId) := rfl

theorem moveItem_items_upd (s : PState) (iid srcId dstId : Nat) :
    (moveItem s iid srcId dstId).items = s.items.map (moveItemUpd iid dstId) := rfl

theorem moveBinUpd_id (iid srcId dstId : Nat) (y : Bin) :
    (moveBinUpd iid srcId dstId y).id = y.id := by
  unfold moveBinUpd
  split
  · rfl
  · split <;> rfl

theorem moveBinUpd_unitCost (iid srcId dstId : Nat) (y : Bin) :
    (moveBinUpd iid srcId dstId y).unitCost = y.unitCost := by
  unfold moveBinUpd
  split
  · rfl
  · split <;> rfl

theorem itemVarCost_bins_map (g : Bin → Bin) (hid : ∀ b, (g b).id = b.id)
    (huc : ∀ b, (g b).unitCost = b.unitCost) (bins : List Bin) (x : Item) :
    itemVarCost (bins.map g) x = itemVarCost bins x := by
  unfold itemVarCost
  cases x.mappedTo with
  | none => rfl
  | some bid =>
    show (Option.map (fun b => getVariableCostOfMapping b x) (findBin (bins.map g) bid)).getD 0
      = (Option.map (fun b => getVariableCostOfMapping b x) (findBin bins bid)).getD 0
    rw [findBin_map_id_pres g hid]
    cases findBin bins bid with
    | none => rfl
    | some b => simp [getVariableCostOfMapping, huc]

theorem itemVarCost_set_mapped (bins : List Bin) (x : Item) (bid : Nat) {b : Bin}
    (hfb : findBin bins bid = some b) :
    itemVarCost bins { x with mappedTo := some bid } = x.weight * b.unitCost := by
  show (Option.map (fun b2 => getVariableCostOfMapping b2 { x with mappedTo := some bid })
    (findBin bins bid)).getD 0 = x.weight * b.unitCost
  rw [hfb]
  rfl

theorem itemVarCost_mapped (bins : List Bin) (x : Item) {srcId : Nat} {b : Bin}
    (hmt : x.mappedTo = some srcId) (hfb : findBin bins srcId = some b) :
    itemVarCost bins x = x.weight * b.unitCost := by
  unfold itemVarCost
  rw [hmt]
  show (Option.map (fun b2 => getVariableCostOfMapping b2 x) (findBin bins srcId)).getD 0
    = x.weight * b.unitCost
  rw [hfb]
  rfl

/-- Replacing `f` by `f2` under a sum changes it by exactly `c` when the two
agree except at the unique item with id `iid`, where they differ by `c`. -/
theorem sum_map_update_one {l : List Item} {f f2 : Item → ℚ} {iid : Nat} {c : ℚ}
    (hnd : (l.map (fun i => i.id)).Nodup)
    (hmem : ∃ x ∈ l, x.id = iid)
    (hne : ∀ x ∈ l, x.id ≠ iid → f2 x = f x)
    (heq : ∀ x ∈ l, x.id = iid → f2 x = f x + c) :
    (l.map f2).sum = (l.map f).sum + c := by
  induction l with
  | nil =>
    obtain ⟨x, hx, _⟩ := hmem
    cases hx
  | cons hd tl ih =>
    rw [List.map_cons, List.nodup_cons] at hnd
    rw [List.map_cons, List.map_cons, List.sum_cons, List.sum_cons]
    by_cases hhd : hd.id = iid
    · have h1 : f2 hd = f hd + c := heq hd (List.mem_cons_self hd tl) hhd
      have h2 : tl.map f2 = tl.map f := by
        apply List.map_congr_left
        intro x hx
        apply hne x (List.mem_cons_of_mem hd hx)
        intro hxid
        apply hnd.1
        rw [hhd, ← hxid]
        exact List.mem_map_of_mem _ hx
      rw [h1, h2]
      ring
    · have h1 : f2 hd = f hd := hne hd (List.mem_cons_self hd tl) hhd
      have hmem2 : ∃ x ∈ tl, x.id = iid := by
        obtain ⟨x, hx, hxid⟩ := hmem
        rcases List.mem_cons.mp hx with rfl | hx2
        · exact absurd hxid hhd
        · exact ⟨x, hx2, hxid⟩
      rw [h1, ih hnd.2 hmem2 (fun x hx => hne x (List.mem_cons_of_mem hd hx))
        (fun x hx => heq x (List.mem_cons_of_mem hd hx))]
      ring

/-- The accepted move changes the validator's variable-cost total by exactly
`weight × (new unit cost − old unit cost)`. -/
theorem moveItem_variableCostTotal {s : PState} {iid srcId bid : Nat} {it : Item}
    {srcBin dstBin : Bin}
    (hni : (s.items.map (fun i => i.id)).Nodup)
    (hitmem : it ∈ s.items) (hitid : it.id = iid)
    (hmt : it.mappedTo = some srcId)
    (hfbsrc : findBin s.bins srcId = some srcBin)
    (hfbdst : findBin s.bins bid = some dstBin) :
    variableCostTotal (moveItem s iid srcId bid) =
      variableCostTotal s + (it.weight * dstBin.unitCost - it.weight * srcBin.unitCost) := by
  unfold variableCostTotal
  rw [moveItem_items_upd, moveItem_bins_upd, List.map_map]
  apply sum_map_update_one hni ⟨it, hitmem, hitid⟩
  · intro x hx hxid
    show itemVarCost (s.bins.map (moveBinUpd iid srcId bid)) (moveItemUpd iid bid x)
      = itemVarCost s.bins x
    have hupd : moveItemUpd iid bid x = x := by
      unfold moveItemUpd
      simp [hxid]
    rw [hupd]
    exact itemVarCost_bins_map _ (moveBinUpd_id iid srcId bid)
      (moveBinUpd_unitCost iid srcId bid) s.bins x
  · intro x hx hxid
    have hxit : x = it := nodup_item_key_eq hni hx hitmem (by rw [hxid, hitid])
    subst hxit
    show itemVarCost (s.bins.map (moveBinUpd iid srcId bid)) (moveItemUpd iid bid x)
      = itemVarCost s.bins x + (x.weight * dstBin.unitCost - x.weight * srcBin.unitCost)
    have hupd : moveItemUpd iid bid x = { x with mappedTo := some bid } := by
      unfold moveItemUpd
      simp [hxid]
    rw [hupd]
    have hfbdst2 : findBin (s.bins.map (moveBinUpd iid srcId bid)) bid
        = some (moveBinUpd iid srcId bid dstBin) := by
      rw [findBin_map_id_pres _ (moveBinUpd_id iid srcId bid), hfbdst]
      rfl
    rw [itemVarCost_set_mapped _ x bid hfbdst2, itemVarCost_mapped s.bins x hmt hfbsrc,
      moveBinUpd_unitCost]
    ring

/-- The pre-rounding state of the objective-increasing instance: two items of
weight 6, a cheap bin of capacity 10 with the higher preference and an
expensive bin of capacity 10. -/
def sPreMoreCost : PState :=
  { items := [{ id := 0, weight := 6, locality := none, possibleBins := [0, 1], mappedTo := none },
              { id := 1, weight := 6, locality := none, possibleBins := [0, 1], mappedTo := none }],
    bins := [{ id := 0, capacity := 10, fixedCost := 0, unitCost := 1, mappedHere := [], preference := 10 },
             { id := 1, capacity := 10, fixedCost := 0, unitCost := 2, mappedHere := [], preference := 2 }],
    minPref := 2, epsilon := 1/1000 }

/-- C2 is falsified: rounding maps both items to the preferred cheap bin
(objective 12, overloading it), the repair loop's fixed point moves one item
to the expensive bin, and the validator accepts that fixed point with
integral objective 18 > 12.  The repair loop increased the integral objective
relative to the state right after rounding, for the fixed best-bin set
`[0, 1]`. -/
theorem c2_counterexample :
    mapAllItemsToBins [0, 1] sPreMoreCost = .ok sRoundMoreCost ∧
    improveLoop sRoundMoreCost [0, 1] = .ok sFixMoreCost ∧
    improveItemToBinMappings sFixMoreCost [0, 1] = .ok none ∧
    checkBinMapping sFixMoreCost = .ok (some (integralObjective sFixMoreCost)) ∧
    integralObjective sRoundMoreCost = 12 ∧
    integralObjective sFixMoreCost = 18 ∧
    ¬ integralObjective sFixMoreCost ≤ integralObjective sRoundMoreCost :=
  ⟨by with_unfolding_all rfl, by with_unfolding_all rfl, by with_unfolding_all rfl,
    by with_unfolding_all rfl, by with_unfolding_all rfl, by with_unfolding_all rfl,
    by with_unfolding_all decide⟩

/-- C2 (amended): for a fixed best-bin set, each accepted repair move changes
the validator's variable-cost total by exactly the cost delta of the selected
candidate pair, and that delta is minimal over all candidate (item,
alternative-bin) pairs.  The delta may be positive, so the repair loop run to
its fixed point CAN increase the integral objective relative to the state
right after rounding (`c2_counterexample`). -/
theorem c2_move_cost_delta (s : PState) (bestIds : List Nat)
    (hni : (s.items.map (fun i => i.id)).Nodup)
    (hnb : (s.bins.map (fun b => b.id)).Nodup) :
    ∀ s' iid bid, improveItemToBinMappings s bestIds = .ok (some (s', iid, bid)) →
      ∃ c, (c, bid, iid) ∈ candidatePairs s bestIds ∧
        (∀ q ∈ candidatePairs s bestIds, c ≤ q.1) ∧
        variableCostTotal s' = variableCostTotal s + c := by
  intro s' iid bid h
  obtain ⟨c, srcId, it, srcBin, hp, hfi, hmt, hfb, hcont, hmv⟩ := improve_some_elim h
  obtain ⟨hitmem, hitid⟩ := findItem_some hfi
  obtain ⟨hpmem, hpmin⟩ := pickCheapest_spec hp
  obtain ⟨it1, hit1, b1, hb1, hcond, hc, hbid, hiid⟩ := mem_candidatePairs.mp hpmem
  have hit1mem : it1 ∈ s.items := ((mem_overloadingItems_nodup hni).mp hit1).1
  have hit1eq : it1 = it := nodup_item_key_eq hni hit1mem hitmem (by rw [← hiid, hitid])
  have hb1mem : b1 ∈ s.bins := (bestBinsOf_spec hb1).1
  have hfbdst : findBin s.bins bid = some b1 := by
    rw [hbid]
    exact findBin_mem_nodup hnb hb1mem
  have hcur : currentUnitCost s it = srcBin.unitCost := by
    unfold currentUnitCost
    rw [hmt]
    show (match findBin s.bins srcId with | some b => b.unitCost | none => 0) = srcBin.unitCost
    rw [hfb]
  have hcval : c = it.weight * b1.unitCost - it.weight * currentUnitCost s it := by
    rw [hc, hit1eq]
    rfl
  refine ⟨c, hpmem, hpmin, ?_⟩
  rw [hmv, moveItem_variableCostTotal hni hitmem hitid hmt hfb hfbdst, hcval, hcur]

/-- Witness for C2 at the counterexample instance: the accepted move raises
the variable-cost total by the (positive) minimal candidate delta. -/
theorem c2_witness :
    ∃ c, (c, 1, 0) ∈ candidatePairs sRoundMoreCost [0, 1] ∧
      (∀ q ∈ candidatePairs sRoundMoreCost [0, 1], c ≤ q.1) ∧
      variableCostTotal sFixMoreCost = variableCostTotal sRoundMoreCost + c :=
  c2_move_cost_delta sRoundMoreCost [0, 1] (by with_unfolding_all decide)
    (by with_unfolding_all decide) sFixMoreCost 0 1 (by with_unfolding_all rfl)

/-! ## Termination of the two loops (claim C9) -/

theorem moveBinUpd_capacity (iid srcId dstId : Nat) (y : Bin) :
    (moveBinUpd iid srcId dstId y).capacity = y.capacity := by
  unfold moveBinUpd
  split
  · rfl
  · split <;> rfl

theorem moveItemUpd_id (iid dstId : Nat) (x : Item) : (moveItemUpd iid dstId x).id = x.id := by
  unfold moveItemUpd
  split <;> rfl

theorem moveItemUpd_weight (iid dstId : Nat) (x : Item) :
    (moveItemUpd iid dstId x).weight = x.weight := by
  unfold moveItemUpd
  split <;> rfl

theorem sum_map_filter {α : Type} (p : α → Bool) (h : α → Nat) (l : List α) :
    ((l.filter p).map h).sum = (l.map (fun x => if p x then h x else 0)).sum := by
  induction l with
  | nil => rfl
  | cons a l ih => cases hp : p a <;> simp [List.filter_cons, hp, ih]

theorem length_filterMap_of_all_some {α β : Type} {f : α → Option β} :
    ∀ {l : List α}, (∀ x ∈ l, (f x).isSome = true) → (l.filterMap f).length = l.length := by
  intro l
  induction l with
  | nil => intro _; rfl
  | cons a l ih =>
    intro h
    have ha := h a (List.mem_cons_self a l)
    cases hfa : f a with
    | none => rw [hfa] at ha; cases ha
    | some b =>
      simp [List.filterMap_cons, hfa, ih (fun x hx => h x (List.mem_cons_of_mem a hx))]

theorem mappedHere_resolve_length {items : List Item} {mh : List Nat}
    (h : ∀ x ∈ mh, x ∈ items.map (fun i => i.id)) :
    (mh.filterMap (findItem items)).length = mh.length := by
  apply length_filterMap_of_all_some
  intro x hx
  obtain ⟨i, hi, hid⟩ := List.mem_map.mp (h x hx)
  unfold findItem
  rw [List.find?_isSome]
  exact ⟨i, hi, by simp [hid]⟩

/-- One bin's contribution to the `overloading_items` list: the number of its
(resolved) members when it is overloaded, `0` otherwise. -/
def binOverContrib (s : PState) (b : Bin) : Nat :=
  if isOverloaded s.items b then (b.mappedHere.filterMap (findItem s.items)).length else 0

theorem overloadingItems_length (s : PState) (bestIds : List Nat) :
    (overloadingItems s bestIds).length =
      ((bestBinsOf s bestIds).map (binOverContrib s)).sum := by
  unfold overloadingItems
  rw [List.length_flatMap, sum_map_filter]
  rfl

theorem bestBinsOf_moveItem (s : PState) (iid srcId dstId : Nat) (bestIds : List Nat) :
    bestBinsOf (moveItem s iid srcId dstId) bestIds =
      (bestBinsOf s bestIds).map (moveBinUpd iid srcId dstId) := by
  unfold bestBinsOf
  rw [show (moveItem s iid srcId dstId).bins = s.bins.map (moveBinUpd iid srcId dstId) from rfl]
  rw [List.map_filterMap]
  have hfeq : findBin (s.bins.map (moveBinUpd iid srcId dstId)) =
      fun x => (findBin s.bins x).map (moveBinUpd iid srcId dstId) :=
    funext (fun x => findBin_map_id_pres _ (moveBinUpd_id iid srcId dstId) s.bins x)
  rw [hfeq]

theorem improve_measure_decrease {s : PState} {bestIds : List Nat} {s' : PState} {iid bid : Nat}
    (hni : (s.items.map (fun i => i.id)).Nodup)
    (hnb : (s.bins.map (fun b => b.id)).Nodup)
    (hinv : BookkeepingInv s)
    (hw : ∀ i ∈ s.items, 0 ≤ i.weight)
    (h : improveItemToBinMappings s bestIds = .ok (some (s', iid, bid))) :
    (overloadingItems s' bestIds).length < (overloadingItems s bestIds).length := by
  obtain ⟨c, srcId, it, srcBin, hp, hfi, hmt, hfb, hcont, hmv⟩ := improve_some_elim h
  obtain ⟨hitmem, hitid⟩ := findItem_some hfi
  obtain ⟨hsbmem, hsbid⟩ := findBin_some hfb
  obtain ⟨hpmem, _⟩ := pickCheapest_spec hp
  obtain ⟨it1, hit1, b1, hb1, hcond, hc, hbid, hiid⟩ := mem_candidatePairs.mp hpmem
  have hit1mem : it1 ∈ s.items := ((mem_overloadingItems_nodup hni).mp hit1).1
  have hit1eq : it1 = it := nodup_item_key_eq hni hit1mem hitmem (by rw [← hiid, hitid])
  have hb1mem : b1 ∈ s.bins := (bestBinsOf_spec hb1).1
  obtain ⟨hfit, hneq, _⟩ := pairCondition_elim hcond
  rw [hit1eq] at hfit hneq hit1
  have hbidne : bid ≠ srcId := by
    intro hEq
    apply hneq
    rw [hmt, ← hbid, hEq]
  obtain ⟨bx, hbx, hbxov, x, hxmem, hxfind⟩ := mem_overloadingItems.mp hit1
  have hbxmem : bx ∈ s.bins := (bestBinsOf_spec hbx).1
  have hxid : it.id = x := (findItem_some hxfind).2
  have hiidmem : iid ∈ bx.mappedHere := by
    rw [← hitid, hxid]
    exact hxmem
  have hmtbx : it.mappedTo = some bx.id := by
    apply (((hinv.1 it hitmem).1 bx hbxmem).1).mp
    rw [hitid]
    exact hiidmem
  have hbxsrc : bx.id = srcId := by
    rw [hmtbx] at hmt
    exact Option.some.inj hmt
  have hbxe : bx = srcBin := nodup_bin_key_eq hnb hbxmem hsbmem (by rw [hbxsrc, hsbid])
  rw [hbxe] at hbx hbxov hiidmem
  have hmemsrc : iid ∈ srcBin.mappedHere := hiidmem
  have hw0 : 0 ≤ it.weight := hw it hitmem
  -- per-bin comparison
  have hitems2 : (moveItem s iid srcId bid).items = s.items.map (moveItemUpd iid bid) := rfl
  have hwpres : ∀ z, itemWeight ((moveItem s iid srcId bid).items) z = itemWeight s.items z := by
    intro z
    rw [hitems2]
    exact itemWeight_map_pres _ (moveItemUpd_id iid bid) (moveItemUpd_weight iid bid) s.items z
  have hloadpres : ∀ b : Bin, totalLoad ((moveItem s iid srcId bid).items) b
      = totalLoad s.items b := by
    intro b
    rw [hitems2]
    exact totalLoad_map_pres _ (moveItemUpd_id iid bid) (moveItemUpd_weight iid bid) s.items b
  have hlenpres : ∀ mh : List Nat,
      (mh.filterMap (findItem ((moveItem s iid srcId bid).items))).length
        = (mh.filterMap (findItem s.items)).length := by
    intro mh
    rw [hitems2]
    have hfeq : findItem (s.items.map (moveItemUpd iid bid)) =
        fun z => (findItem s.items z).map (moveItemUpd iid bid) :=
      funext (fun z => findItem_map_id_pres _ (moveItemUpd_id iid bid) s.items z)
    rw [hfeq, ← List.map_filterMap, List.length_map]
  have hiw : itemWeight s.items iid = it.weight := by
    unfold itemWeight
    rw [hfi]
    rfl
  have hcase : ∀ b ∈ bestBinsOf s bestIds,
      binOverContrib (moveItem s iid srcId bid) (moveBinUpd iid srcId bid b)
        ≤ binOverContrib s b ∧
      (b.id = srcId →
        binOverContrib (moveItem s iid srcId bid) (moveBinUpd iid srcId bid b)
          < binOverContrib s b) := by
    intro b hb
    have hbmem : b ∈ s.bins := (bestBinsOf_spec hb).1
    by_cases hbsrc : b.id = srcId
    · have hbe : b = srcBin := nodup_bin_key_eq hnb hbmem hsbmem (by rw [hbsrc, hsbid])
      have hgb : moveBinUpd iid srcId bid b = { b with mappedHere := b.mappedHere.erase iid } := by
        unfold moveBinUpd
        simp [hbsrc]
      have hmemb : iid ∈ b.mappedHere := by rw [hbe]; exact hmemsrc
      have h1 : binOverContrib (moveItem s iid srcId bid) (moveBinUpd iid srcId bid b)
          ≤ (b.mappedHere.erase iid).length := by
        rw [hgb]
        unfold binOverContrib
        split
        · exact List.length_filterMap_le _ _
        · exact Nat.zero_le _
      have h2 : (b.mappedHere.erase iid).length = b.mappedHere.length - 1 :=
        List.length_erase_of_mem hmemb
      have hres : (b.mappedHere.filterMap (findItem s.items)).length = b.mappedHere.length :=
        mappedHere_resolve_length (fun z hz => hinv.2 b hbmem z hz)
      have hov : isOverloaded s.items b = true := by rw [hbe]; exact hbxov
      have h3 : binOverContrib s b = b.mappedHere.length := by
        unfold binOverContrib
        rw [hov, if_pos rfl]
        exact hres
      have hpos : 0 < b.mappedHere.length := List.length_pos_of_mem hmemb
      have hstrict : binOverContrib (moveItem s iid srcId bid) (moveBinUpd iid srcId bid b)
          < binOverContrib s b := by
        rw [h3]
        omega
      exact ⟨le_of_lt hstrict, fun _ => hstrict⟩
    · by_cases hbdst : b.id = bid
      · have hbe : b = b1 := nodup_bin_key_eq hnb hbmem hb1mem (by rw [hbdst, hbid])
        have hgb : moveBinUpd iid srcId bid b
            = { b with mappedHere := b.mappedHere ++ [iid] } := by
          unfold moveBinUpd
          simp [hbsrc, hbdst, hbidne]
        have hload : totalLoad ((moveItem s iid srcId bid).items) (moveBinUpd iid srcId bid b)
            = totalLoad s.items b + it.weight := by
          rw [hgb]
          show (((b.mappedHere ++ [iid]).map (itemWeight (moveItem s iid srcId bid).items))).sum
            = totalLoad s.items b + it.weight
          rw [List.map_append, List.sum_append]
          have hm : b.mappedHere.map (itemWeight ((moveItem s iid srcId bid).items))
              = b.mappedHere.map (itemWeight s.items) :=
            List.map_congr_left (fun z _ => hwpres z)
          rw [hm]
          have hs : ([iid].map (itemWeight ((moveItem s iid srcId bid).items))).sum
              = it.weight := by
            simp [hwpres iid, hiw]
          rw [hs]
          rfl
        have hfits : totalLoad s.items b + it.weight ≤ b.capacity := by
          have := of_decide_eq_true hfit
          rw [hbe]
          exact this
        have hov : isOverloaded ((moveItem s iid srcId bid).items) (moveBinUpd iid srcId bid b)
            = false := by
          unfold isOverloaded
          rw [hload, moveBinUpd_capacity]
          exact decide_eq_false (not_lt.mpr hfits)
        have h0 : binOverContrib (moveItem s iid srcId bid) (moveBinUpd iid srcId bid b) = 0 := by
          unfold binOverContrib
          rw [hov]
          rfl
        rw [h0]
        exact ⟨Nat.zero_le _, fun hpre => absurd hpre hbsrc⟩
      · have hgb : moveBinUpd iid srcId bid b = b := by
          unfold moveBinUpd
          simp [hbsrc, hbdst]
        have heq : binOverContrib (moveItem s iid srcId bid) (moveBinUpd iid srcId bid b)
            = binOverContrib s b := by
          rw [hgb]
          unfold binOverContrib
          rw [show isOverloaded ((moveItem s iid srcId bid).items) b = isOverloaded s.items b from
            by unfold isOverloaded; rw [hloadpres b]]
          rw [hlenpres b.mappedHere]
        rw [heq]
        exact ⟨le_refl _, fun hpre => absurd hpre hbsrc⟩
  rw [hmv, overloadingItems_length, overloadingItems_length, bestBinsOf_moveItem, List.map_map]
  apply List.sum_lt_sum
  · intro b hb
    exact (hcase b hb).1
  · exact ⟨srcBin, hbx, (hcase srcBin hbx).2 hsbid⟩

theorem iterImprove_succ (bestIds : List Nat) (n : Nat) (s : PState) :
    iterImprove bestIds (n + 1) s =
      match improveItemToBinMappings s bestIds with
      | .error e => .error e
      | .ok none => .ok s
      | .ok (some (s2, _, _)) => iterImprove bestIds n s2 := rfl

theorem improve_some_ids {s : PState} {bestIds : List Nat} {s' : PState} {iid bid : Nat}
    (h : improveItemToBinMappings s bestIds = .ok (some (s', iid, bid))) :
    s'.items.map (fun i => i.id) = s.items.map (fun i => i.id) ∧
    s'.bins.map (fun b => b.id) = s.bins.map (fun b => b.id) := by
  obtain ⟨c, srcId, it, srcBin, hp, hfi, hmt, hfb, hcont, hmv⟩ := improve_some_elim h
  subst hmv
  exact ⟨moveItem_items_ids s iid srcId bid, moveItem_bins_ids s iid srcId bid⟩

theorem improve_preserves_weights {s : PState} {bestIds : List Nat} {s' : PState} {iid bid : Nat}
    (hw : ∀ i ∈ s.items, 0 ≤ i.weight)
    (h : improveItemToBinMappings s bestIds = .ok (some (s', iid, bid))) :
    ∀ i ∈ s'.items, 0 ≤ i.weight := by
  obtain ⟨c, srcId, it, srcBin, hp, hfi, hmt, hfb, hcont, hmv⟩ := improve_some_elim h
  subst hmv
  intro i hi
  rw [moveItem_items_upd] at hi
  obtain ⟨x, hx, rfl⟩ := List.mem_map.mp hi
  rw [moveItemUpd_weight]
  exact hw x hx

theorem iterImprove_fixpoint (bestIds : List Nat) :
    ∀ fuel (s : PState), (overloadingItems s bestIds).length < fuel →
      (s.items.map (fun i => i.id)).Nodup → (s.bins.map (fun b => b.id)).Nodup →
      BookkeepingInv s → (∀ i ∈ s.items, 0 ≤ i.weight) →
      (∃ e, iterImprove bestIds fuel s = .error e) ∨
      (∃ s2, iterImprove bestIds fuel s = .ok s2 ∧
        improveItemToBinMappings s2 bestIds = .ok none) := by
  intro fuel
  induction fuel with
  | zero =>
    intro s hlt
    exact absurd hlt (Nat.not_lt_zero _)
  | succ n ih =>
    intro s hlt hni hnb hinv hw
    cases himp : improveItemToBinMappings s bestIds with
    | error e =>
      left
      exact ⟨e, by rw [iterImprove_succ, himp]⟩
    | ok o =>
      cases o with
      | none =>
        right
        exact ⟨s, by rw [iterImprove_succ, himp], himp⟩
      | some p =>
        obtain ⟨s2, iid, bid⟩ := p
        have hstep : iterImprove bestIds (n + 1) s = iterImprove bestIds n s2 := by
          rw [iterImprove_succ, himp]
        rw [hstep]
        have hdec := improve_measure_decrease hni hnb hinv hw himp
        have hids := improve_some_ids himp
        apply ih s2
        · omega
        · rw [hids.1]; exact hni
        · rw [hids.2]; exact hnb
        · exact improve_preserves_inv hni hnb hinv himp
        · exact improve_preserves_weights hw himp

theorem improveLoop_fixpoint {s : PState} {bestIds : List Nat}
    (hni : (s.items.map (fun i => i.id)).Nodup)
    (hnb : (s.bins.map (fun b => b.id)).Nodup)
    (hinv : BookkeepingInv s)
    (hw : ∀ i ∈ s.items, 0 ≤ i.weight) :
    (∃ e, improveLoop s bestIds = .error e) ∨
    (∃ s2, improveLoop s bestIds = .ok s2 ∧
      improveItemToBinMappings s2 bestIds = .ok none) :=
  iterImprove_fixpoint bestIds ((overloadingItems s bestIds).length + 1) s
    (Nat.lt_succ_self _) hni hnb hinv hw

theorem iterImprove_ok_bins_ids (bestIds : List Nat) :
    ∀ fuel (s s2 : PState), iterImprove bestIds fuel s = .ok s2 →
      s2.bins.map (fun b => b.id) = s.bins.map (fun b => b.id) := by
  intro fuel
  induction fuel with
  | zero =>
    intro s s2 h
    have h2 : (Except.ok s : Except MapError PState) = .ok s2 := h
    cases h2
    rfl
  | succ n ih =>
    intro s s2 h
    rw [iterImprove_succ] at h
    cases himp : improveItemToBinMappings s bestIds with
    | error e =>
      rw [himp] at h
      have h2 : (Except.error e : Except MapError PState) = .ok s2 := h
      cases h2
    | ok o =>
      cases o with
      | none =>
        rw [himp] at h
        have h2 : (Except.ok s : Except MapError PState) = .ok s2 := h
        cases h2
        rfl
      | some p =>
        obtain ⟨s3, iid, bid⟩ := p
        rw [himp] at h
        have h2 : iterImprove bestIds n s3 = .ok s2 := h
        exact (ih s3 s2 h2).trans (improve_some_ids himp).2

theorem improveLoop_ok_bins_ids {s s2 : PState} {bestIds : List Nat}
    (h : improveLoop s bestIds = .ok s2) :
    s2.bins.map (fun b => b.id) = s.bins.map (fun b => b.id) :=
  iterImprove_ok_bins_ids bestIds ((overloadingItems s bestIds).length + 1) s s2 h

theorem getNewBestBins_elim {s : PState} {bestIds best' : List Nat} {expanded : Bool}
    {s'' : PState} (h : getNewBestBins s bestIds = .ok (best', expanded, s'')) :
    s''.bins.map (fun b => b.id) = s.bins.map (fun b => b.id) ∧
    (expanded = false → best' = bestIds ∧ s'' = s) ∧
    (expanded = true → ∃ bId, bId ∈ s.bins.map (fun b => b.id) ∧ bId ∉ bestIds ∧
      best' = bestIds ++ [bId]) := by
  unfold getNewBestBins at h
  cases hc : checkBinMapping s with
  | error e =>
    rw [hc] at h
    have h2 : (Except.error e : Except MapError (List Nat × Bool × PState))
        = .ok (best', expanded, s'') := h
    cases h2
  | ok o =>
    cases o with
    | some v =>
      rw [hc] at h
      have h2 : (Except.ok (bestIds, false, s) : Except MapError (List Nat × Bool × PState))
          = .ok (best', expanded, s'') := h
      simp only [Except.ok.injEq, Prod.mk.injEq] at h2
      obtain ⟨hb, he, hs⟩ := h2
      subst hb
      subst he
      subst hs
      exact ⟨rfl, fun _ => ⟨rfl, rfl⟩, fun hx => Bool.noConfusion hx⟩
    | none =>
      rw [hc] at h
      cases hf : (getBinsSortedByFilledUnitCost s.bins).find? (fun b => !(bestIds.contains b.id)) with
      | some b =>
        rw [hf] at h
        have h2 : (Except.ok (bestIds ++ [b.id], true,
            { s with
              bins := s.bins.map (fun b2 =>
                if b2.id == b.id then { b2 with preference := s.minPref - s.epsilon } else b2),
              minPref := s.minPref - s.epsilon }) : Except MapError (List Nat × Bool × PState))
            = .ok (best', expanded, s'') := h
        simp only [Except.ok.injEq, Prod.mk.injEq] at h2
        obtain ⟨hb, he, hs⟩ := h2
        subst hb
        subst he
        subst hs
        refine ⟨?_, fun hx => Bool.noConfusion hx, ?_⟩
        · exact bins_map_ids_of_pres _ (fun b2 => by split <;> rfl) s.bins
        · intro _
          refine ⟨b.id, ?_, ?_, rfl⟩
          · have hmem : b ∈ getBinsSortedByFilledUnitCost s.bins := List.mem_of_find?_eq_some hf
            exact List.mem_map_of_mem _ ((sortedBins_perm s.bins).mem_iff.mp hmem)
          · have hbn := List.find?_some hf
            simp at hbn
            exact hbn
      | none =>
        rw [hf] at h
        have h2 : (Except.ok (bestIds, false, s) : Except MapError (List Nat × Bool × PState))
            = .ok (best', expanded, s'') := h
        simp only [Except.ok.injEq, Prod.mk.injEq] at h2
        obtain ⟨hb, he, hs⟩ := h2
        subst hb
        subst he
        subst hs
        exact ⟨rfl, fun _ => ⟨rfl, rfl⟩, fun hx => Bool.noConfusion hx⟩

theorem solveLoop_stable :
    ∀ (k : Nat) (bestIds : List Nat) (s : PState),
      (s.bins.map (fun b => b.id)).Nodup → bestIds.Nodup →
      (∀ x ∈ bestIds, x ∈ s.bins.map (fun b => b.id)) →
      s.bins.length ≤ bestIds.length + k →
      solveLoop (k + 1) bestIds s = solveLoop (k + 2) bestIds s := by
  intro k
  induction k with
  | zero =>
    intro bestIds s hnb hbd hsub hlen
    have hcover : ∀ y ∈ s.bins.map (fun b => b.id), y ∈ bestIds := by
      have hsp : bestIds.Subperm (s.bins.map (fun b => b.id)) := hbd.subperm hsub
      have hperm : bestIds.Perm (s.bins.map (fun b => b.id)) :=
        hsp.perm_of_length_le (by rw [List.length_map]; omega)
      intro y hy
      exact hperm.mem_iff.mpr hy
    cases him : improveLoop s bestIds with
    | error e => rw [solveLoop_succ_err 0 him, solveLoop_succ_err 1 him]
    | ok s1 =>
      cases hg : getNewBestBins s1 bestIds with
      | error e => rw [solveLoop_succ_err2 0 him hg, solveLoop_succ_err2 1 him hg]
      | ok t =>
        obtain ⟨best2, expanded, s2⟩ := t
        have hexp : expanded = false := by
          cases hexp2 : expanded with
          | false => rfl
          | true =>
            obtain ⟨bId, hbmem, hbnot, _⟩ := (getNewBestBins_elim hg).2.2 hexp2
            rw [improveLoop_ok_bins_ids him] at hbmem
            exact absurd (hcover bId hbmem) hbnot
        rw [solveLoop_succ_step 0 him hg, solveLoop_succ_step 1 him hg, hexp]
        rfl
  | succ n ih =>
    intro bestIds s hnb hbd hsub hlen
    cases him : improveLoop s bestIds with
    | error e => rw [solveLoop_succ_err (n + 1) him, solveLoop_succ_err (n + 2) him]
    | ok s1 =>
      cases hg : getNewBestBins s1 bestIds with
      | error e => rw [solveLoop_succ_err2 (n + 1) him hg, solveLoop_succ_err2 (n + 2) him hg]
      | ok t =>
        obtain ⟨best2, expanded, s2⟩ := t
        rw [solveLoop_succ_step (n + 1) him hg, solveLoop_succ_step (n + 2) him hg]
        cases expanded with
        | false => rfl
        | true =>
          show solveLoop (n + 1) best2 s2 = solveLoop (n + 2) best2 s2
          obtain ⟨hbins2, _, hexp⟩ := getNewBestBins_elim hg
          obtain ⟨bId, hbmem, hbnot, hbest2⟩ := hexp rfl
          have hbins1 := improveLoop_ok_bins_ids him
          have hbins : s2.bins.map (fun b => b.id) = s.bins.map (fun b => b.id) :=
            hbins2.trans hbins1
          rw [hbins1] at hbmem
          apply ih best2 s2
          · rw [hbins]; exact hnb
          · rw [hbest2]
            exact hbd.append (List.nodup_singleton bId)
              (fun a ha hb => by simp at hb; subst hb; exact hbnot ha)
          · intro x hx
            rw [hbins]
            rw [hbest2] at hx
            rcases List.mem_append.mp hx with hx1 | hx2
            · exact hsub x hx1
            · simp at hx2
              subst hx2
              exact hbmem
          · have hlb : s2.bins.length = s.bins.length := by
              have := congrArg List.length hbins
              simpa using this
            rw [hlb, hbest2, List.length_append]
            simp only [List.length_singleton]
            omega

/-- C9: every solve terminates.  Under the reachable-state conditions
(distinct item and bin ids, the bookkeeping invariant, non-negative weights,
duplicate-free best-bin ids drawn from the bins), (1) the inner improvement
loop reaches a state with no possible move after finitely many steps, because
(2) every accepted move strictly decreases the number of items sitting in
overloaded best bins, and (3) the outer expansion loop stabilises once its
iteration budget covers the bins not yet admitted — each expansion admits a
bin not yet in the best-bin set — so `map` either returns a result or
raises. -/
theorem c9_termination (s : PState) (bestIds : List Nat)
    (hni : (s.items.map (fun i => i.id)).Nodup)
    (hnb : (s.bins.map (fun b => b.id)).Nodup)
    (hinv : BookkeepingInv s)
    (hw : ∀ i ∈ s.items, 0 ≤ i.weight)
    (hbd : bestIds.Nodup)
    (hsub : ∀ x ∈ bestIds, x ∈ s.bins.map (fun b => b.id)) :
    ((∃ e, improveLoop s bestIds = .error e) ∨
      (∃ s2, improveLoop s bestIds = .ok s2 ∧
        improveItemToBinMappings s2 bestIds = .ok none)) ∧
    (∀ s' iid bid, improveItemToBinMappings s bestIds = .ok (some (s', iid, bid)) →
      (overloadingItems s' bestIds).length < (overloadingItems s bestIds).length) ∧
    (∀ k, s.bins.length ≤ bestIds.length + k →
      solveLoop (k + 1) bestIds s = solveLoop (k + 2) bestIds s) := by
  refine ⟨improveLoop_fixpoint hni hnb hinv hw, ?_, ?_⟩
  · intro s' iid bid h
    exact improve_measure_decrease hni hnb hinv hw h
  · intro k hk
    exact solveLoop_stable k bestIds s hnb hbd hsub hk

/-- Witness for C9 at a concrete overloaded state. -/
theorem c9_witness :
    ((∃ e, improveLoop sRoundMoreCost [0, 1] = .error e) ∨
      (∃ s2, improveLoop sRoundMoreCost [0, 1] = .ok s2 ∧
        improveItemToBinMappings s2 [0, 1] = .ok none)) ∧
    (∀ s' iid bid,
      improveItemToBinMappings sRoundMoreCost [0, 1] = .ok (some (s', iid, bid)) →
      (overloadingItems s' [0, 1]).length
        < (overloadingItems sRoundMoreCost [0, 1]).length) ∧
    (∀ k, sRoundMoreCost.bins.length ≤ [0, 1].length + k →
      solveLoop (k + 1) [0, 1] sRoundMoreCost = solveLoop (k + 2) [0, 1] sRoundMoreCost) :=
  c9_termination sRoundMoreCost [0, 1] (by with_unfolding_all decide) (by with_unfolding_all decide)
    (by with_unfolding_all decide) (by with_unfolding_all decide) (by decide)
    (by with_unfolding_all decide)


/-! ## The two soft-failure paths of map (claim C8) -/

theorem setInitialBinPreferences_bins_ids (totalW totalCap : ℚ) (bestIds : List Nat)
    (s : PState) :
    (setInitialBinPreferences totalW totalCap bestIds s).bins.map (fun b => b.id)
      = s.bins.map (fun b => b.id) := by
  unfold setInitialBinPreferences
  exact bins_map_ids_of_pres _ (fun b => by split <;> rfl) s.bins

theorem getFistBestBins_elim {s : PState} {best : List Nat} {s' : PState}
    (h : getFistBestBins s = .ok (best, s')) :
    s'.bins.map (fun b => b.id) = s.bins.map (fun b => b.id) ∧
    ∃ k, best = (((getBinsSortedByFilledUnitCost s.bins).take k).map (fun b => b.id)) := by
  unfold getFistBestBins at h
  cases haux : getFistBestBinsAux (totalItemWeight s.items)
      (getBinsSortedByFilledUnitCost s.bins) 0 [] with
  | none =>
    rw [haux] at h
    have h2 : (Except.error MapError.unfeasibleTotalCapacity :
        Except MapError (List Nat × PState)) = .ok (best, s') := h
    cases h2
  | some pr =>
    rw [haux] at h
    obtain ⟨bestBins, cap⟩ := pr
    have h2 : (Except.ok (bestBins.map (fun b => b.id),
        setInitialBinPreferences (totalItemWeight s.items) cap
          (bestBins.map (fun b => b.id)) s) :
        Except MapError (List Nat × PState)) = .ok (best, s') := h
    simp only [Except.ok.injEq, Prod.mk.injEq] at h2
    obtain ⟨hbe, hse⟩ := h2
    constructor
    · rw [← hse]
      exact setInitialBinPreferences_bins_ids _ _ _ s
    · obtain ⟨k, hk1, hkle, hbest, _, _, _⟩ := getFistBestBinsAux_some haux
      refine ⟨k, ?_⟩
      rw [← hbe, hbest]
      simp

theorem getFistBestBins_best_nodup_sub {s : PState} {best : List Nat} {s' : PState}
    (hnb : (s.bins.map (fun b => b.id)).Nodup)
    (h : getFistBestBins s = .ok (best, s')) :
    best.Nodup ∧ ∀ x ∈ best, x ∈ s.bins.map (fun b => b.id) := by
  obtain ⟨_, k, hbest⟩ := getFistBestBins_elim h
  have hperm : ((getBinsSortedByFilledUnitCost s.bins).map (fun b => b.id)).Perm
      (s.bins.map (fun b => b.id)) := (sortedBins_perm s.bins).map _
  have hnds : ((getBinsSortedByFilledUnitCost s.bins).map (fun b => b.id)).Nodup :=
    (hperm.nodup_iff).mpr hnb
  have htake : best = ((getBinsSortedByFilledUnitCost s.bins).map (fun b => b.id)).take k := by
    rw [hbest, List.map_take]
  constructor
  · rw [htake]
    exact hnds.sublist (List.take_sublist k _)
  · intro x hx
    rw [htake] at hx
    exact hperm.mem_iff.mp ((List.take_subset k _) hx)

theorem mapItemsGo_ok_bins_ids (bestIds : List Nat) :
    ∀ (l : List Item) (s s3 : PState), mapItemsGo bestIds l s = .ok s3 →
      s3.bins.map (fun b => b.id) = s.bins.map (fun b => b.id) := by
  intro l
  induction l with
  | nil =>
    intro s s3 h
    have h2 : (Except.ok s : Except MapError PState) = .ok s3 := h
    cases h2
    rfl
  | cons p rest ih =>
    intro s s3 h
    cases hch : chooseBinForItem s bestIds p with
    | error e =>
      rw [mapItemsGo_err hch] at h
      cases h
    | ok bid =>
      rw [mapItemsGo_step hch] at h
      exact (ih _ s3 h).trans (assignItemToBin_bins_ids s p.id bid)

theorem base_bins_ids_nodup {inp : Input} {s0 : PState}
    (hinfra : (inp.infraNodes.map (fun n => n.id)).Nodup)
    (h : getBaseBinPackingProblem inp = .ok s0) :
    (s0.bins.map (fun b => b.id)).Nodup := by
  cases hm : minServiceWeight inp with
  | none =>
    have he : getBaseBinPackingProblem inp = .error .valueErrorEmptyItems := by
      unfold getBaseBinPackingProblem
      rw [minItemWeight_built, hm]
    rw [he] at h
    cases h
  | some minw =>
    rw [getBaseBinPackingProblem_of_min hm] at h
    cases hie : (builtBins inp minw).isEmpty with
    | true =>
      rw [hie] at h
      have h2 : (Except.error MapError.unfeasibleNoBinForSmallest :
          Except MapError PState) = .ok s0 := h
      cases h2
    | false =>
      rw [hie] at h
      have hbins : s0.bins = builtBins inp minw := by cases h; rfl
      rw [hbins]
      unfold builtBins
      rw [List.map_map]
      exact hinfra.sublist ((List.filter_sublist _).map _)

theorem getNewBestBins_none_exhausted {s : PState} {bestIds best' : List Nat} {s'' : PState}
    (hcheck : checkBinMapping s = .ok none)
    (hg : getNewBestBins s bestIds = .ok (best', false, s'')) :
    ∀ b ∈ s.bins, b.id ∈ bestIds := by
  unfold getNewBestBins at hg
  rw [hcheck] at hg
  cases hf : (getBinsSortedByFilledUnitCost s.bins).find? (fun b => !(bestIds.contains b.id)) with
  | some b =>
    rw [hf] at hg
    have h2 : (Except.ok (bestIds ++ [b.id], true,
        { s with
          bins := s.bins.map (fun b2 =>
            if b2.id == b.id then { b2 with preference := s.minPref - s.epsilon } else b2),
          minPref := s.minPref - s.epsilon }) : Except MapError (List Nat × Bool × PState))
        = .ok (best', false, s'') := hg
    simp only [Except.ok.injEq, Prod.mk.injEq] at h2
    exact absurd h2.2.1 (by simp)
  | none =>
    intro b hb
    have hmem : b ∈ getBinsSortedByFilledUnitCost s.bins :=
      (sortedBins_perm s.bins).mem_iff.mpr hb
    have hx := List.find?_eq_none.mp hf b hmem
    simp at hx
    exact hx

theorem solveLoop_exhaustion :
    ∀ (fuel : Nat) (bestIds : List Nat) (s : PState) (bF : List Nat) (sF : PState),
      (s.bins.map (fun b => b.id)).Nodup → bestIds.Nodup →
      (∀ x ∈ bestIds, x ∈ s.bins.map (fun b => b.id)) →
      s.bins.length < fuel + bestIds.length →
      solveLoop fuel bestIds s = .ok (bF, sF) →
      checkBinMapping sF = .ok none →
      ∀ b ∈ sF.bins, b.id ∈ bF := by
  intro fuel
  induction fuel with
  | zero =>
    intro bestIds s bF sF hnb hbd hsub hlen h hcheck
    have hsp : bestIds.Subperm (s.bins.map (fun b => b.id)) := hbd.subperm hsub
    have hle := hsp.length_le
    rw [List.length_map] at hle
    omega
  | succ n ih =>
    intro bestIds s bF sF hnb hbd hsub hlen h hcheck
    cases him : improveLoop s bestIds with
    | error e =>
      rw [solveLoop_succ_err n him] at h
      cases h
    | ok s1 =>
      cases hg : getNewBestBins s1 bestIds with
      | error e =>
        rw [solveLoop_succ_err2 n him hg] at h
        cases h
      | ok t =>
        obtain ⟨best2, expanded, s2⟩ := t
        rw [solveLoop_succ_step n him hg] at h
        cases hexp : expanded with
        | false =>
          rw [hexp] at h
          have h2 : (Except.ok (best2, s2) : Except MapError (List Nat × PState))
              = .ok (bF, sF) := h
          simp only [Except.ok.injEq, Prod.mk.injEq] at h2
          obtain ⟨hb2, hs2⟩ := h2
          rw [hexp] at hg
          obtain ⟨hbins, hfe, _⟩ := getNewBestBins_elim hg
          obtain ⟨hbeq, hseq⟩ := hfe rfl
          rw [← hs2, hseq] at hcheck
          intro b hb
          rw [← hs2, hseq] at hb
          rw [← hb2, hbeq]
          exact getNewBestBins_none_exhausted hcheck hg b hb
        | true =>
          rw [hexp] at h
          have h2 : solveLoop n best2 s2 = .ok (bF, sF) := h
          rw [hexp] at hg
          obtain ⟨hbins2, _, hfe⟩ := getNewBestBins_elim hg
          obtain ⟨bId, hbmem, hbnot, hbest2⟩ := hfe rfl
          have hbins1 := improveLoop_ok_bins_ids him
          have hbins : s2.bins.map (fun b => b.id) = s.bins.map (fun b => b.id) :=
            hbins2.trans hbins1
          rw [hbins1] at hbmem
          apply ih best2 s2 bF sF
          · rw [hbins]; exact hnb
          · rw [hbest2]
            exact hbd.append (List.nodup_singleton bId)
              (fun a ha hbm => by simp at hbm; subst hbm; exact hbnot ha)
          · intro x hx
            rw [hbins]
            rw [hbest2] at hx
            rcases List.mem_append.mp hx with hx1 | hx2
            · exact hsub x hx1
            · simp at hx2
              subst hx2
              exact hbmem
          · have hlb : s2.bins.length = s.bins.length := by
              have hcl := congrArg List.length hbins
              simpa using hcl
            rw [hlb, hbest2, List.length_append]
            simp only [List.length_singleton]
            omega
          · exact h2
          · exact hcheck

theorem finishMap_none {sF : PState} (hc : checkBinMapping sF = .ok none) :
    finishMap sF = .ok { worked := false } := by
  unfold finishMap
  rw [hc]

theorem finishMap_elim {sF : PState} {r : MapResult} (h : finishMap sF = .ok r) :
    (checkBinMapping sF = .ok none ∧ r = { worked := false }) ∨
    (∃ v, checkBinMapping sF = .ok (some v) ∧ r = { worked := true }) := by
  unfold finishMap at h
  cases hc : checkBinMapping sF with
  | error e =>
    rw [hc] at h
    have h2 : (Except.error e : Except MapError MapResult) = .ok r := h
    cases h2
  | ok o =>
    cases o with
    | none =>
      rw [hc] at h
      have h2 : (Except.ok { worked := false } : Except MapError MapResult) = .ok r := h
      simp only [Except.ok.injEq] at h2
      exact Or.inl ⟨rfl, h2.symm⟩
    | some v =>
      rw [hc] at h
      cases hoc : checkOtherConstraints sF with
      | true =>
        rw [hoc] at h
        have h2 : (Except.ok { worked := true } : Except MapError MapResult) = .ok r := h
        simp only [Except.ok.injEq] at h2
        exact Or.inr ⟨v, rfl, h2.symm⟩
      | false =>
        rw [hoc] at h
        have h2 : (Except.error MapError.otherConstraintViolated :
            Except MapError MapResult) = .ok r := h
        cases h2

/-- C8: `map` returns a `worked = false` result without raising exactly in
two situations: when a checker predicate fails (the gate before any solving
work), or when bin admission has exhausted every bin — each bin's id is in
the final best-bin set — and the final `check_bin_mapping` still reports the
mapping invalid (the "heuristic gave up" case). -/
theorem c8_soft_failure (inp : Input) (r : MapResult)
    (hinfra : (inp.infraNodes.map (fun n => n.id)).Nodup)
    (h : mapAlg inp = .ok r) :
    r.worked = false ↔
      ((!inp.infraOk || !inp.nsOk) = true ∨
        ∃ bF sF, solvePhase inp = .ok (bF, sF) ∧ checkBinMapping sF = .ok none ∧
          ∀ b ∈ sF.bins, b.id ∈ bF) := by
  cases hc : (!inp.infraOk || !inp.nsOk) with
  | true =>
    have hmap := mapAlg_checks_fail hc
    rw [hmap] at h
    have h2 : ({ worked := false } : MapResult) = r := by
      simpa using h
    constructor
    · intro _
      exact Or.inl rfl
    · intro _
      rw [← h2]
  | false =>
    rw [mapAlg_of_checks hc] at h
    cases hsp : solvePhase inp with
    | error e =>
      rw [hsp] at h
      have h2 : (Except.error e : Except MapError MapResult) = .ok r := h
      cases h2
    | ok pr =>
      obtain ⟨bF0, sF0⟩ := pr
      rw [hsp] at h
      have hfin : finishMap sF0 = .ok r := h
      constructor
      · intro hw
        rcases finishMap_elim hfin with ⟨hchk, hr⟩ | ⟨v, hchk, hr⟩
        · right
          refine ⟨bF0, sF0, rfl, hchk, ?_⟩
          cases hbuild : getBaseBinPackingProblem inp with
          | error e =>
            have hse : solvePhase inp = .error e := by
              unfold solvePhase
              rw [hbuild]
            rw [hse] at hsp
            cases hsp
          | ok s0 =>
            cases hrelax : getFistBestBins
                { s0 with items := prunePossibleMappings s0.items } with
            | error e =>
              rw [solvePhase_of_relax_err hbuild hrelax] at hsp
              cases hsp
            | ok pr2 =>
              obtain ⟨best, s2⟩ := pr2
              cases hround : mapAllItemsToBins best s2 with
              | error e =>
                rw [solvePhase_of_relax hbuild hrelax, hround] at hsp
                have h3 : (Except.error e : Except MapError (List Nat × PState))
                    = .ok (bF0, sF0) := hsp
                cases h3
              | ok s3 =>
                have hsl : solveLoop (s3.bins.length + 1) best s3 = .ok (bF0, sF0) := by
                  rw [← solvePhase_of_round hbuild hrelax hround]
                  exact hsp
                have hnb0 := base_bins_ids_nodup hinfra hbuild
                have hnbPr : ((({ s0 with items := prunePossibleMappings s0.items } :
                    PState)).bins.map (fun b => b.id)).Nodup := hnb0
                have hbins2 : s2.bins.map (fun b => b.id) = s0.bins.map (fun b => b.id) :=
                  (getFistBestBins_elim hrelax).1
                obtain ⟨hbdn, hbsub⟩ := getFistBestBins_best_nodup_sub hnbPr hrelax
                have hbins3 : s3.bins.map (fun b => b.id) = s2.bins.map (fun b => b.id) :=
                  mapItemsGo_ok_bins_ids best s2.items s2 s3 hround
                have hnb3 : (s3.bins.map (fun b => b.id)).Nodup := by
                  rw [hbins3, hbins2]
                  exact hnb0
                refine solveLoop_exhaustion (s3.bins.length + 1) best s3 bF0 sF0 hnb3 hbdn
                  ?_ (by omega) hsl hchk
                intro x hx
                rw [hbins3, hbins2]
                exact hbsub x hx
        · rw [hr] at hw
          cases hw
      · intro hor
        rcases hor with hcf | ⟨bF, sF, hsp2, hchk, _⟩
        · cases hcf
        · simp only [Except.ok.injEq, Prod.mk.injEq] at hsp2
          obtain ⟨hb, hs⟩ := hsp2
          rw [← hs] at hchk
          have hfm := finishMap_none hchk
          have h3 := hfm.symm.trans hfin
          simp only [Except.ok.injEq] at h3
          rw [← h3]

/-- Witness for C8 at the gave-up instance: the checkers pass, the bins are
exhausted and the final check reports invalid, so `worked = false`. -/
theorem c8_witness :
    ({ worked := false } : MapResult).worked = false ↔
      ((!inpGaveUp.infraOk || !inpGaveUp.nsOk) = true ∨
        ∃ bF sF, solvePhase inpGaveUp = .ok (bF, sF) ∧ checkBinMapping sF = .ok none ∧
          ∀ b ∈ sF.bins, b.id ∈ bF) :=
  c8_soft_failure inpGaveUp { worked := false } (by with_unfolding_all decide)
    (by with_unfolding_all rfl)


end VolatilePlacement
